import Mathlib

/-!
Verification development for the snapshot annotation and ref-addressing
engine of the agent-browser repository.

The engine is a string-processing pipeline over the engine-native
accessibility-tree text (one entry per line), plus an in-page
cursor-interactive detector and a region partitioner whose DOM queries are
external collaborators.  We embed the pipeline shallowly:

* JavaScript strings are Lean `String`s; the specific regular expressions of
  the source are implemented as deterministic character-list parsers with the
  exact same semantics (the patterns involved are backtracking-free).
* The module-global ref counter, the RefMap object and the role+name tracker
  maps thread through the functions as an explicit `SnapState`; JavaScript
  objects and Maps preserve insertion order, so both are association lists.
* Results of in-page DOM queries (aria tree text, eligible cursor-interactive
  candidates, region element sets and their geometry/visibility predicates)
  are inputs of the model, packaged in oracle structures; a rejected
  round-trip is an `Except.error` / `Option.none` input.
* `Array.prototype.sort` (stable per the ECMAScript spec, and all comparators
  in the source are consistent) is modelled by a stable insertion sort.
-/

namespace AgentBrowser

/-- Character class of the JavaScript regular-expression escape backslash-s
([\t\n\v\f\r space NBSP ogham and unicode space separators ZWNBSP]). -/
def jsSpaceChars : List Char :=
  ['\t', '\n', '\u000B', '\u000C', '\r', ' ', ' ', ' ',
   ' ', ' ', ' ', ' ', ' ', ' ', ' ',
   ' ', ' ', ' ', ' ', ' ', ' ', ' ',
   ' ', '　', '﻿']

/-- Test for the JavaScript backslash-s character class. -/
def isJsSpace (c : Char) : Bool := decide (c ∈ jsSpaceChars)

/-- Character class of the JavaScript backslash-w escape: ASCII letters,
digits and underscore. -/
def isWordChar (c : Char) : Bool :=
  ('a' ≤ c && c ≤ 'z') || ('A' ≤ c && c ≤ 'Z') || ('0' ≤ c && c ≤ '9') || c = '_'

/-- ASCII lower-casing of one character (role tokens are backslash-w only,
so the full-unicode JavaScript toLowerCase agrees with this on them). -/
def asciiLowerChar (c : Char) : Char :=
  if 'A' ≤ c && c ≤ 'Z' then Char.ofNat (c.toNat + 32) else c

/-- ASCII lower-casing of a string, modelling role.toLowerCase(). -/
def lowerStr (s : String) : String := ⟨s.data.map asciiLowerChar⟩

/-- JavaScript s.includes(sub): substring containment. -/
def containsStr (sub s : String) : Bool := decide (sub.data <:+: s.data)

/-- JavaScript s.includes(c) for a single character. -/
def containsChar (s : String) (c : Char) : Bool := s.data.contains c

/-- JavaScript s.endsWith(c) for a single character. -/
def endsWithChar (s : String) (c : Char) : Bool := s.data.getLast? = some c

/-- JavaScript s.startsWith(c) for a single character. -/
def startsWithChar (s : String) (c : Char) : Bool := s.data.head? = some c

/-- Split a character list at every occurrence of the separator character,
keeping empty chunks, exactly like JavaScript string split. -/
def splitChar (sep : Char) : List Char → List (List Char)
  | [] => [[]]
  | c :: cs =>
    let rest := splitChar sep cs
    if c = sep then [] :: rest
    else match rest with
      | [] => [[c]]
      | r :: rs => (c :: r) :: rs

/-- JavaScript tree.split(newline). -/
def splitLines (s : String) : List String := (splitChar '\n' s.data).map String.mk

/-- JavaScript parts.join(sep). -/
def joinSep (sep : String) : List String → String
  | [] => ""
  | [s] => s
  | s :: rest => s ++ sep ++ joinSep sep rest

/-- JavaScript lines.join(newline). -/
def joinLines (l : List String) : String := joinSep "\n" l

/-- The single-quote character, kept out of string literals. -/
def sq : String := String.mk [Char.ofNat 39]

/-- The opening-brace character, kept out of string literals. -/
def obr : String := String.mk [Char.ofNat 123]

/-- The closing-brace character, kept out of string literals. -/
def cbr : String := String.mk [Char.ofNat 125]

/-- Decimal digit character, 0 ≤ n ≤ 9 maps to the ASCII digits. -/
def decDigitChar (n : Nat) : Char := Char.ofNat (48 + n)

/-- Decimal digit list of a natural number (fuel-based so that it reduces
definitionally; the fuel is always sufficient). -/
def decDigitsAux : Nat → Nat → List Char
  | 0, _ => []
  | fuel + 1, n =>
    if n < 10 then [decDigitChar n]
    else decDigitsAux fuel (n / 10) ++ [decDigitChar (n % 10)]

/-- Decimal rendering of a natural number, the JavaScript template
interpolation of an integer counter. -/
def natRepr (n : Nat) : String := ⟨decDigitsAux (n + 1) n⟩

/-- Numeric value of one decimal digit character. -/
def decDigitVal (c : Char) : Nat := c.toNat - 48

/-- Test for an ASCII decimal digit, the backslash-d character class. -/
def isDigitChar (c : Char) : Bool := '0' ≤ c && c ≤ '9'

/-- Reading a digit list back into a number (used to express the spec-side
predicate "the ref id matches e followed by digits"). -/
def decValue (cs : List Char) : Nat := cs.foldl (fun acc c => acc * 10 + decDigitVal c) 0

/-- Spec-side parser for ref identifiers: a string of the shape e followed by
one or more decimal digits yields its numeric part. -/
def parseRefNum (s : String) : Option Nat :=
  match s.data with
  | 'e' :: ds => if ds ≠ [] && ds.all isDigitChar then some (decValue ds) else none
  | _ => none

/-- Stable insertion into a list sorted by the boolean relation le: the new
element goes in front of the first entry it compares le to, hence in front of
later-discovered equal entries and behind earlier ones. -/
def insSorted (le : α → α → Bool) (a : α) : List α → List α
  | [] => [a]
  | b :: l => if le a b then a :: b :: l else b :: insSorted le a l

/-- Stable sort by the boolean relation le.  ECMAScript Array.prototype.sort
is stable and all comparators used by the source are consistent (induced by
total preorders), so any stable sort computes the same permutation; we use
insertion sort because it is structurally recursive. -/
def sortBy (le : α → α → Bool) : List α → List α
  | [] => []
  | a :: l => insSorted le a (sortBy le l)

/-- First-occurrence deduplication, modelling Array.from(new Set(xs)). -/
def dedupFirstAux [DecidableEq α] (seen : List α) : List α → List α
  | [] => []
  | a :: l => if a ∈ seen then dedupFirstAux seen l else a :: dedupFirstAux (a :: seen) l

/-- First-occurrence deduplication entry point. -/
def dedupFirst [DecidableEq α] (l : List α) : List α := dedupFirstAux [] l

/-- Association-list lookup, modelling Map.get / object indexing. -/
def assocGet (l : List (String × β)) (k : String) : Option β :=
  match l with
  | [] => none
  | (k', v) :: rest => if k' = k then some v else assocGet rest k

/-- Association-list update, modelling Map.set / object assignment: an
existing key keeps its original position, a new key is appended (JavaScript
Maps and plain-string-keyed objects preserve insertion order). -/
def assocSet (l : List (String × β)) (k : String) (v : β) : List (String × β) :=
  match l with
  | [] => [(k, v)]
  | (k', v') :: rest => if k' = k then (k, v) :: rest else (k', v') :: assocSet rest k v

/-- SnapshotOptions from the source; absent fields of the options object are
the defaults. -/
structure SnapshotOptions where
  interactive : Bool := false
  cursor : Bool := false
  maxDepth : Option Nat := none
  compact : Bool := false
  selector : Option String := none
deriving DecidableEq, Repr

/-- One RefMap entry.  The name field distinguishes a missing name from an
empty captured name (both are falsy in the source and collapse wherever the
source tests truthiness). -/
structure RefEntry where
  selector : String
  role : String
  name : Option String := none
  nth : Option Nat := none
deriving DecidableEq, Repr

/-- The mutable state threaded through one snapshot invocation: the
module-global ref counter, the RefMap (an insertion-ordered object), and the
role+name tracker of createRoleNameTracker (two insertion-ordered Maps). -/
structure SnapState where
  counter : Nat
  refs : List (String × RefEntry)
  counts : List (String × Nat)
  refsByKey : List (String × List String)
deriving DecidableEq, Repr

/-- State after resetRefs() with a fresh RefMap and a fresh tracker from
createRoleNameTracker. -/
def initState : SnapState := ⟨0, [], [], []⟩

/-- nextRef(): increments the shared counter and renders e followed by it. -/
def nextRef (st : SnapState) : String × SnapState :=
  ("e" ++ natRepr (st.counter + 1), { st with counter := st.counter + 1 })

/-- JavaScript truthiness of the optional captured name (undefined and the
empty string are both falsy). -/
def nameTruthy (name : Option String) : Bool := name.getD "" ≠ ""

/-- Tracker key: role, a colon, and the name with undefined coerced to the
empty string (getKey of createRoleNameTracker). -/
def trackerKey (role : String) (name : Option String) : String :=
  role ++ ":" ++ name.getD ""

/-- getNextIndex of the tracker: the 0-based number of previous assignments
for this key, post-incrementing the per-key count. -/
def getNextIndex (st : SnapState) (role : String) (name : Option String) : Nat × SnapState :=
  let key := trackerKey role name
  let current := (assocGet st.counts key).getD 0
  (current, { st with counts := assocSet st.counts key (current + 1) })

/-- trackRef of the tracker: append the ref id to the list stored under the
key. -/
def trackRef (st : SnapState) (role : String) (name : Option String) (ref : String) : SnapState :=
  let key := trackerKey role name
  let refs := (assocGet st.refsByKey key).getD []
  { st with refsByKey := assocSet st.refsByKey key (refs ++ [ref]) }

/-- Duplicate test of getDuplicateKeys: a key is a duplicate when more than
one ref id was tracked under it. -/
def isDuplicateKey (st : SnapState) (key : String) : Bool :=
  ((assocGet st.refsByKey key).getD []).length > 1

/-- INTERACTIVE_ROLES of the source. -/
def INTERACTIVE_ROLES : List String :=
  ["button", "link", "textbox", "checkbox", "radio", "combobox", "listbox",
   "menuitem", "menuitemcheckbox", "menuitemradio", "option", "searchbox",
   "slider", "spinbutton", "switch", "tab", "treeitem"]

/-- CONTENT_ROLES of the source. -/
def CONTENT_ROLES : List String :=
  ["heading", "cell", "gridcell", "columnheader", "rowheader", "listitem",
   "article", "region", "main", "navigation"]

/-- STRUCTURAL_ROLES of the source. -/
def STRUCTURAL_ROLES : List String :=
  ["generic", "group", "list", "table", "row", "rowgroup", "grid", "treegrid",
   "menu", "menubar", "toolbar", "tablist", "tree", "directory", "document",
   "application", "presentation", "none"]

/-- Escape of double quotes in the ref-map selector (name.replace of every
double quote by backslash double quote). -/
def escapeQuotes (s : String) : String :=
  ⟨s.data.flatMap (fun c => if c = '"' then ['\\', '"'] else [c])⟩

/-- buildSelector of the source: a role+name locator expression when the name
is truthy, a bare role locator otherwise. -/
def buildSelector (role : String) (name : Option String) : String :=
  if nameTruthy name then
    "getByRole(" ++ sq ++ role ++ sq ++ ", " ++ obr ++ " name: \"" ++
      escapeQuotes (name.getD "") ++ "\", exact: true " ++ cbr ++ ")"
  else
    "getByRole(" ++ sq ++ role ++ sq ++ ")"

/-- Result of the line grammar, the capture groups of the source pattern
caret (backslash-s* minus backslash-s*) (backslash-w+) optionally
(backslash-s+ quote ([^quote]*) quote) (.*) dollar. -/
structure LineMatch where
  pre : String
  role : String
  name : Option String
  suffix : String
deriving DecidableEq, Repr

/-- Deterministic parser with exactly the semantics of the source pattern;
the pattern is backtracking-free because backslash-s, the dash, backslash-w
and the quote are pairwise disjoint character classes. -/
def matchLine (line : String) : Option LineMatch :=
  let cs := line.data
  let ws0 := cs.takeWhile isJsSpace
  match cs.dropWhile isJsSpace with
  | '-' :: r1 =>
    let ws1 := r1.takeWhile isJsSpace
    let r2 := r1.dropWhile isJsSpace
    let roleCs := r2.takeWhile isWordChar
    if roleCs = [] then none
    else
      let pre : String := ⟨ws0 ++ '-' :: ws1⟩
      let r3 := r2.dropWhile isWordChar
      let ws2 := r3.takeWhile isJsSpace
      let nameTry : Option (String × String) :=
        if ws2 = [] then none
        else
          match r3.dropWhile isJsSpace with
          | '"' :: r4 =>
            let content := r4.takeWhile (fun c => c ≠ '"')
            match r4.dropWhile (fun c => c ≠ '"') with
            | '"' :: r5 => some (⟨content⟩, ⟨r5⟩)
            | _ => none
          | _ => none
      match nameTry with
      | some (nm, suf) => some ⟨pre, ⟨roleCs⟩, some nm, suf⟩
      | none => some ⟨pre, ⟨roleCs⟩, none, ⟨r3⟩⟩
  | _ => none

/-- getIndentLevel of the source: leading backslash-s characters divided by
two, rounded down. -/
def getIndentLevel (line : String) : Nat :=
  (line.data.takeWhile isJsSpace).length / 2

/-- The ref-assignment snippet shared by both emission paths of the source:
draw a fresh ref, draw the 0-based per-key index, track the ref under the
key, and store the entry (always with a tentative nth; non-duplicates are
cleaned up later). -/
def assignTrackedRef (role : String) (name : Option String) (st : SnapState) :
    (String × Nat) × SnapState :=
  let (ref, st1) := nextRef st
  let (nth, st2) := getNextIndex st1 role name
  let st3 := trackRef st2 role name ref
  let entry : RefEntry :=
    { selector := buildSelector role name, role := role, name := name,
      nth := some nth }
  ((ref, nth), { st3 with refs := assocSet st3.refs ref entry })

/-- Rendering of an enhanced line in full mode: original prefix and role,
the name when truthy, the ref tag, the nth tag when positive, and the whole
original suffix. -/
def renderFullLine (m : LineMatch) (ref : String) (nth : Nat) : String :=
  m.pre ++ m.role ++
    (if nameTruthy m.name then " \"" ++ m.name.getD "" ++ "\"" else "") ++
    " [ref=" ++ ref ++ "]" ++
    (if nth > 0 then " [nth=" ++ natRepr nth ++ "]" else "") ++
    (if m.suffix ≠ "" then m.suffix else "")

/-- processLine of the source: depth cut-off, grammar match, metadata
pass-through, interactive / compact filters, and ref assignment for
interactive or named content roles. -/
def processLine (line : String) (opts : SnapshotOptions) (st : SnapState) :
    Option String × SnapState :=
  let depth := getIndentLevel line
  let tooDeep : Bool :=
    match opts.maxDepth with
    | some d => decide (depth > d)
    | none => false
  if tooDeep then (none, st)
  else
    match matchLine line with
    | none => if opts.interactive then (none, st) else (some line, st)
    | some m =>
      if startsWithChar m.role '/' then (some line, st)
      else
        let roleLower := lowerStr m.role
        let isInteractive := decide (roleLower ∈ INTERACTIVE_ROLES)
        let isContent := decide (roleLower ∈ CONTENT_ROLES)
        let isStructural := decide (roleLower ∈ STRUCTURAL_ROLES)
        if opts.interactive && !isInteractive then (none, st)
        else if opts.compact && isStructural && !nameTruthy m.name then (none, st)
        else if isInteractive || (isContent && nameTruthy m.name) then
          let ((ref, nth), st1) := assignTrackedRef roleLower m.name st
          (some (renderFullLine m ref nth), st1)
        else (some line, st)

/-- Rendering of an enhanced line in interactive-only mode: the prefix is
normalised to dash space, and the suffix is kept only when it is truthy and
contains an opening bracket. -/
def renderInteractiveLine (m : LineMatch) (ref : String) (nth : Nat) : String :=
  "- " ++ m.role ++
    (if nameTruthy m.name then " \"" ++ m.name.getD "" ++ "\"" else "") ++
    " [ref=" ++ ref ++ "]" ++
    (if nth > 0 then " [nth=" ++ natRepr nth ++ "]" else "") ++
    (if m.suffix ≠ "" && containsChar m.suffix '[' then m.suffix else "")

/-- One iteration of the interactive-only loop of processAriaTree: lines that
match the grammar and carry an interactive role are re-emitted with a ref,
everything else is skipped. -/
def processInteractiveLine (line : String) (st : SnapState) :
    Option String × SnapState :=
  match matchLine line with
  | none => (none, st)
  | some m =>
    let roleLower := lowerStr m.role
    if decide (roleLower ∈ INTERACTIVE_ROLES) then
      let ((ref, nth), st1) := assignTrackedRef roleLower m.name st
      (some (renderInteractiveLine m ref nth), st1)
    else (none, st)

/-- Fold of a per-line step over the lines, accumulating emitted lines in
order, modelling the result array of processAriaTree. -/
def foldLines (step : String → SnapState → Option String × SnapState) :
    List String → SnapState → List String × SnapState
  | [], st => ([], st)
  | l :: rest, st =>
    let (out, st1) := step l st
    let (outs, st2) := foldLines step rest st1
    (match out with | some o => o :: outs | none => outs, st2)

/-- removeNthFromNonDuplicates of the source: entries whose tracker key was
tracked at most once lose their nth field. -/
def removeNthFromNonDuplicates (st : SnapState) : SnapState :=
  { st with
    refs := st.refs.map (fun p =>
      if isDuplicateKey st (trackerKey p.2.role p.2.name) then p
      else (p.1, { p.2 with nth := none })) }

/-- Keep decision of compactTree for one line given the lines after it: keep
lines containing a ref tag, lines with inline colon content, and lines with a
ref-bearing line among the strictly-deeper lines immediately following. -/
def compactKeepLine (line : String) (rest : List String) : Bool :=
  if containsStr "[ref=" line then true
  else if containsChar line ':' && !endsWithChar line ':' then true
  else
    (rest.takeWhile (fun l => getIndentLevel l > getIndentLevel line)).any
      (fun l => containsStr "[ref=" l)

/-- The line filter of compactTree over the split line list.  The source
scans forward from each index and stops at the first line whose indent level
does not exceed the current one, which is exactly the takeWhile prefix used
by compactKeepLine. -/
def compactAux : List String → List String
  | [] => []
  | l :: rest =>
    (if compactKeepLine l rest then [l] else []) ++ compactAux rest

/-- compactTree of the source: split, filter, rejoin. -/
def compactTree (tree : String) : String :=
  joinLines (compactAux (splitLines tree))

/-- The emitted-line list of processAriaTree before joining: the
interactive-only single pass, or the normal pass with depth/compact filters
applied per line. -/
def processAriaTreeCore (ariaTree : String) (opts : SnapshotOptions)
    (st : SnapState) : List String × SnapState :=
  let lines := splitLines ariaTree
  if opts.interactive then foldLines processInteractiveLine lines st
  else foldLines (fun l s => processLine l opts s) lines st

/-- processAriaTree of the source (part_002 signature: the tracker is shared
and finalizeNth tells whether to strip nth fields here). -/
def processAriaTree (ariaTree : String) (opts : SnapshotOptions)
    (st : SnapState) (finalizeNth : Bool) : String × SnapState :=
  let (outs, st1) := processAriaTreeCore ariaTree opts st
  let st2 := if finalizeNth then removeNthFromNonDuplicates st1 else st1
  if opts.interactive then
    let joined := joinLines outs
    (if joined = "" then "(no interactive elements)" else joined, st2)
  else if opts.compact then (compactTree (joinLines outs), st2)
  else (joinLines outs, st2)

/-- parseRef of the source: strip a leading at sign, strip a leading ref=
prefix marker, accept a bare e-number, reject anything else. -/
def parseRef (arg : String) : Option String :=
  if startsWithChar arg '@' then some ⟨arg.data.drop 1⟩
  else if arg.data.take 4 = "ref=".data then some ⟨arg.data.drop 4⟩
  else if arg.data ≠ [] && arg.data.head? = some 'e' &&
      (arg.data.drop 1) ≠ [] && (arg.data.drop 1).all isDigitChar then some arg
  else none

/-- A cursor-detector candidate as assembled in the in-page query, after the
eligibility filter: the element identity (an abstract node id used by the
containment oracle), the generated structural selector, the truncated best
label, the tag name, the boolean signals, the DOM depth and the discovery
order. -/
structure Candidate where
  elem : Nat
  selector : String
  text : String
  tagName : String
  hasOnClick : Bool
  hasCursorPointer : Bool
  hasTabIndex : Bool
  hasTitle : Bool
  hasAriaLabel : Bool
  hasDirectCursorPointer : Bool
  depth : Nat
  order : Nat
deriving DecidableEq, Repr

/-- The projection returned to the caller of the in-page query. -/
structure CursorElement where
  selector : String
  text : String
  tagName : String
  hasOnClick : Bool
  hasCursorPointer : Bool
  hasTabIndex : Bool
deriving DecidableEq, Repr

/-- scoreCandidate of the source. -/
def scoreCandidate (c : Candidate) : Nat :=
  (if c.hasTitle then 16 else if c.hasAriaLabel then 8 else 0) +
    (if c.hasDirectCursorPointer then 4 else 0) +
    (if c.hasOnClick then 2 else 0) +
    (if c.hasTabIndex then 1 else 0)

/-- Explicit-label test used by the sort tie-breaks. -/
def labeledCand (c : Candidate) : Bool := c.hasTitle || c.hasAriaLabel

/-- The sort comparator of the detector as a boolean order: cursorLe a b
holds when the source comparator applied to (a, b) is non-positive, i.e.
descending score, then for two labeled candidates ascending depth, otherwise
descending depth, then ascending discovery order. -/
def cursorLe (a b : Candidate) : Bool :=
  if scoreCandidate a ≠ scoreCandidate b then
    decide (scoreCandidate b < scoreCandidate a)
  else if labeledCand a && labeledCand b then
    if a.depth ≠ b.depth then decide (a.depth < b.depth)
    else decide (a.order ≤ b.order)
  else if a.depth ≠ b.depth then decide (b.depth < a.depth)
  else decide (a.order ≤ b.order)

/-- Discovery-order comparator of the final re-sort. -/
def orderLe (a b : Candidate) : Bool := decide (a.order ≤ b.order)

/-- The acceptance walk over the sorted candidate list: a candidate is
accepted unless it contains, or is contained in, an already accepted one
(the containment oracle is the DOM Node.contains relation on element ids). -/
def selectNonOverlapping (contains : Nat → Nat → Bool) (acc : List Candidate) :
    List Candidate → List Candidate
  | [] => acc
  | c :: rest =>
    let overlaps := acc.any (fun ch =>
      contains ch.elem c.elem || contains c.elem ch.elem)
    if overlaps then selectNonOverlapping contains acc rest
    else selectNonOverlapping contains (acc ++ [c]) rest

/-- Discovery order assignment: the in-page loop numbers eligible candidates
0, 1, 2, ... in document order. -/
def assignOrders (cs : List Candidate) : List Candidate :=
  (cs.enum).map (fun p => { p.2 with order := p.1 })

/-- The score/containment deduplication of the detector: stable-sort by the
comparator, walk accepting non-overlapping candidates, then stable-sort the
accepted ones back into discovery order. -/
def dedupeCursorCandidates (contains : Nat → Nat → Bool) (cs : List Candidate) :
    List Candidate :=
  let sorted := sortBy cursorLe cs
  let selected := selectNonOverlapping contains [] sorted
  sortBy orderLe selected

/-- The result of the whole in-page cursor query for a given root: order
assignment, deduplication, projection. -/
def cursorQueryResult (contains : Nat → Nat → Bool) (cs : List Candidate) :
    List CursorElement :=
  (dedupeCursorCandidates contains (assignOrders cs)).map (fun c =>
    { selector := c.selector, text := c.text, tagName := c.tagName,
      hasOnClick := c.hasOnClick, hasCursorPointer := c.hasCursorPointer,
      hasTabIndex := c.hasTabIndex })

/-- Region keys of the partitioner. -/
inductive RegionKey where
  | sidebar
  | contents
  | drawer
  | fab
deriving DecidableEq, Repr

/-- A detected region: key, display title, unique selectors of the surviving
on-screen elements. -/
structure SnapshotRegion where
  key : RegionKey
  title : String
  selectors : List String
deriving DecidableEq, Repr

/-- The in-page DOM oracle consumed by getMyheloActiveRegions: selector
matching in document order, the visibility test isOnScreenAndVisible, the
DOM containment relation and depth, the structurally-unique selector
builder, and the combined id/class-token-or-floating-control fab signal
(these are geometry and computed-style reads on the live page). -/
structure RegionDom where
  qsa : String → List Nat
  visible : Nat → Bool
  containsEl : Nat → Nat → Bool
  depthEl : Nat → Nat
  uniqueSelector : Nat → String
  fabSignal : Nat → Bool

/-- Candidate selector lists of the three named region definitions. -/
def regionDefs : List (RegionKey × String × List String) :=
  [(RegionKey.sidebar, "Sidebar",
    ["#sidebar-header", "#sidebar-center", "#sidebar-footer",
     ".component.reverb.sidebar"]),
   (RegionKey.contents, "Contents",
    ["#panel-header", "#panel-center", "#panel-footer", "#contents-header",
     "#contents-center", "#contents-footer", ".component.reverb.threads",
     ".component.reverb.messages"]),
   (RegionKey.drawer, "Drawer",
    ["#drawer-container", "#drawer-header", "#drawer-center",
     "#drawer-footer"])]

/-- Shell detection of the partitioner: at least one contents-like and at
least one sidebar/drawer-like selector must match. -/
def hasMyheloSubLayout (dom : RegionDom) : Bool :=
  (dom.qsa "#panel-center" ≠ [] || dom.qsa "#contents-center" ≠ [] ||
   dom.qsa ".component.reverb.threads" ≠ [] ||
   dom.qsa ".component.reverb.messages" ≠ []) &&
  (dom.qsa "#sidebar-center" ≠ [] || dom.qsa "#drawer-container" ≠ [] ||
   dom.qsa ".component.reverb.sidebar" ≠ [])

/-- dedupeTopLevelElements of the source: first-occurrence set
deduplication, stable sort ascending by DOM depth, then a walk dropping any
element nested inside an already selected one. -/
def dedupeTopLevelAux (dom : RegionDom) (selected : List Nat) :
    List Nat → List Nat
  | [] => selected
  | e :: rest =>
    if selected.any (fun picked => dom.containsEl picked e) then
      dedupeTopLevelAux dom selected rest
    else dedupeTopLevelAux dom (selected ++ [e]) rest

/-- dedupeTopLevelElements entry point. -/
def dedupeTopLevelElements (dom : RegionDom) (elements : List Nat) : List Nat :=
  dedupeTopLevelAux dom []
    (sortBy (fun a b => decide (dom.depthEl a ≤ dom.depthEl b)) (dedupFirst elements))

/-- collectRegionSelectors of the source: all on-screen visible matches of
the candidate selectors in order, containment-deduplicated, rendered as
unique selectors. -/
def collectRegionSelectors (dom : RegionDom) (candidateSelectors : List String) :
    List String :=
  let found := candidateSelectors.flatMap (fun sel =>
    (dom.qsa sel).filter dom.visible)
  (dedupeTopLevelElements dom found).map dom.uniqueSelector

/-- collectFabSelectors of the source: every on-screen visible element with a
fab id/class token or passing the floating-control heuristic (both folded
into the fabSignal oracle), containment-deduplicated, rendered as unique
selectors. -/
def collectFabSelectors (dom : RegionDom) : List String :=
  let fabElements := (dom.qsa "*").filter (fun e => dom.visible e && dom.fabSignal e)
  (dedupeTopLevelElements dom fabElements).map dom.uniqueSelector

/-- getMyheloActiveRegions of the source; the outer Option models the
try/catch around the in-page evaluation, a failed round-trip yielding no
regions. -/
def getMyheloActiveRegions (dom? : Option RegionDom) : List SnapshotRegion :=
  match dom? with
  | none => []
  | some dom =>
    if !hasMyheloSubLayout dom then []
    else
      let named := regionDefs.foldr (fun d acc =>
        let selectors := collectRegionSelectors dom d.2.2
        if selectors ≠ [] then ⟨d.1, d.2.1, selectors⟩ :: acc else acc) []
      let fabSelectors := collectFabSelectors dom
      if fabSelectors ≠ [] then
        named ++ [⟨RegionKey.fab, "FAB", fabSelectors⟩]
      else named

/-- The external collaborators of one snapshot call, indexed by the scope
selector actually used (none meaning the page root): the region query
outcome, the aria-tree acquisition per scope (error modelling a rejected
ariaSnapshot round-trip), and the cursor query per scope (none modelling a
rejected evaluate round-trip) together with the containment relation used by
its deduplication. -/
structure PageOracle where
  regionDom : Option RegionDom
  aria : Option String → Except Unit String
  cursorRaw : Option String → Option (List Candidate)
  containsEl : Nat → Nat → Bool

/-- findCursorInteractiveElements of the source: the whole in-page query runs
atomically; a rejected round-trip is caught and yields the empty list. -/
def findCursorInteractiveElements (oracle : PageOracle) (selector : Option String) :
    List CursorElement :=
  match oracle.cursorRaw selector with
  | none => []
  | some cs => cursorQueryResult oracle.containsEl cs

/-- Role decision for a cursor element: clickable for cursor-pointer or
onclick, focusable for tabindex-only. -/
def cursorRole (el : CursorElement) : String :=
  if el.hasCursorPointer then "clickable"
  else if el.hasOnClick then "clickable" else "focusable"

/-- Hint tags appended to a cursor line. -/
def cursorHints (el : CursorElement) : List String :=
  (if el.hasCursorPointer then ["cursor:pointer"] else []) ++
    (if el.hasOnClick then ["onclick"] else []) ++
    (if el.hasTabIndex then ["tabindex"] else [])

/-- The cursor-element loop of getEnhancedSnapshotForScope: each element gets
a fresh ref, an entry without nth, and an additional output line. -/
def appendCursorLines : List CursorElement → SnapState → List String × SnapState
  | [], st => ([], st)
  | el :: rest, st =>
    let (ref, st1) := nextRef st
    let role := cursorRole el
    let entry : RefEntry :=
      { selector := el.selector, role := role, name := some el.text, nth := none }
    let st2 := { st1 with refs := assocSet st1.refs ref entry }
    let line := "- " ++ role ++ " \"" ++ el.text ++ "\" [ref=" ++ ref ++ "] [" ++
      joinSep ", " (cursorHints el) ++ "]"
    let (lines, st3) := appendCursorLines rest st2
    (line :: lines, st3)

/-- The placeholder used for an empty or failed scope. -/
def emptyScopeText (opts : SnapshotOptions) : String :=
  if opts.interactive then "(no interactive elements)" else "(empty)"

/-- getEnhancedSnapshotForScope of part_002: acquire the aria tree of the
scope (errors and the falsy empty string degrade to the placeholder), then
optionally run the cursor detector and append its lines under the separator
heading when the base tree is a real tree. -/
def getEnhancedSnapshotForScope (oracle : PageOracle) (opts : SnapshotOptions)
    (st : SnapState) : String × SnapState :=
  let (enhancedTree, st1) :=
    match oracle.aria opts.selector with
    | Except.error _ => (emptyScopeText opts, st)
    | Except.ok t =>
      if t ≠ "" then processAriaTree t opts st false
      else (emptyScopeText opts, st)
  if opts.cursor then
    let els := findCursorInteractiveElements oracle opts.selector
    let (lines, st2) := appendCursorLines els st1
    if lines ≠ [] then
      let isPlaceholder :=
        enhancedTree = "(no interactive elements)" || enhancedTree = "(empty)"
      let sep := if isPlaceholder then "" else "\n# Cursor-interactive elements:\n"
      let base := if isPlaceholder then "" else enhancedTree
      (base ++ sep ++ joinLines lines, st2)
    else (enhancedTree, st2)
  else (enhancedTree, st1)

/-- Per-selector loop of buildMyheloRegionSection: scoped snapshots that are
falsy or placeholders are skipped. -/
def regionSectionParts (oracle : PageOracle) (opts : SnapshotOptions) :
    List String → SnapState → List String × SnapState
  | [], st => ([], st)
  | sel :: rest, st =>
    let (scopedTree, st1) :=
      getEnhancedSnapshotForScope oracle { opts with selector := some sel } st
    let (parts, st2) := regionSectionParts oracle opts rest st1
    if scopedTree = "" || scopedTree = "(empty)" ||
        scopedTree = "(no interactive elements)" then (parts, st2)
    else (scopedTree :: parts, st2)

/-- buildMyheloRegionSection of part_002. -/
def buildMyheloRegionSection (oracle : PageOracle) (opts : SnapshotOptions)
    (selectors : List String) (st : SnapState) : String × SnapState :=
  let (parts, st1) := regionSectionParts oracle opts selectors st
  if parts ≠ [] then (joinSep "\n" parts, st1)
  else (emptyScopeText opts, st1)

/-- Region loop of getEnhancedSnapshot: one titled section per active
region. -/
def regionSections (oracle : PageOracle) (opts : SnapshotOptions) :
    List SnapshotRegion → SnapState → List String × SnapState
  | [], st => ([], st)
  | r :: rest, st =>
    let (sectionTree, st1) := buildMyheloRegionSection oracle opts r.selectors st
    let (sections, st2) := regionSections oracle opts rest st1
    (("# " ++ r.title ++ ":\n" ++ sectionTree) :: sections, st2)

/-- The snapshot result: the annotated tree text and the RefMap. -/
structure EnhancedSnapshot where
  tree : String
  refs : List (String × RefEntry)
deriving DecidableEq, Repr

/-- getEnhancedSnapshot of part_002 (the top-level entry point): reset the
counter, build a fresh RefMap and tracker, take the region path when no
selector was given and the shell was detected, otherwise snapshot the whole
scope; finally strip nth from non-duplicates. -/
def getEnhancedSnapshot (oracle : PageOracle) (opts : SnapshotOptions) :
    EnhancedSnapshot :=
  let st0 := initState
  let viaRegions :=
    if opts.selector = none then
      let regions := getMyheloActiveRegions oracle.regionDom
      if regions ≠ [] then
        let (sections, st1) := regionSections oracle opts regions st0
        let st2 := removeNthFromNonDuplicates st1
        some ⟨joinSep "\n\n" sections, st2.refs⟩
      else none
    else none
  match viaRegions with
  | some result => result
  | none =>
    let (enhancedTree, st1) := getEnhancedSnapshotForScope oracle opts st0
    let st2 := removeNthFromNonDuplicates st1
    ⟨enhancedTree, st2.refs⟩

/-- getEnhancedSnapshot of src/snapshot.ts (the variant without region
partitioning): the top-level ariaSnapshot call is not wrapped in a try/catch,
so a rejected acquisition round-trip propagates out of the function; an empty
tree short-circuits to the empty placeholder. -/
def getEnhancedSnapshotTS (oracle : PageOracle) (opts : SnapshotOptions) :
    Except Unit EnhancedSnapshot :=
  let st0 := initState
  match oracle.aria opts.selector with
  | Except.error e => Except.error e
  | Except.ok ariaTree =>
    if ariaTree = "" then Except.ok ⟨"(empty)", []⟩
    else
      let (enhancedTree, st1) := processAriaTree ariaTree opts st0 true
      if opts.cursor then
        let els := findCursorInteractiveElements oracle opts.selector
        let (lines, st2) := appendCursorLines els st1
        if lines ≠ [] then
          let isPlaceholder := enhancedTree = "(no interactive elements)"
          let sep := if isPlaceholder then "" else "\n# Cursor-interactive elements:\n"
          let base := if isPlaceholder then "" else enhancedTree
          Except.ok ⟨base ++ sep ++ joinLines lines, st2.refs⟩
        else Except.ok ⟨enhancedTree, st2.refs⟩
      else Except.ok ⟨enhancedTree, st1.refs⟩

/-! Spec-side definitions used only to state properties. -/

/-- Ref identifier with a given numeric part. -/
def refName (n : Nat) : String := "e" ++ natRepr n

/-- Numeric part of a ref key, for stating the monotonicity of emitted ids. -/
def numOf (s : String) : Nat := (parseRefNum s).getD 0

/-- Roles assigned by the tree pipeline (as opposed to the cursor detector)
are exactly the interactive and the named-content ones. -/
def isTrackedRole (r : String) : Bool :=
  decide (r ∈ INTERACTIVE_ROLES) || decide (r ∈ CONTENT_ROLES)

/-- The tracker key of a stored entry. -/
def entryKey (e : RefEntry) : String := trackerKey e.role e.name

/-- All entries of the RefMap sharing a tracker key and produced by the tree
pipeline, in discovery order. -/
def trackedGroup (refs : List (String × RefEntry)) (key : String) :
    List (String × RefEntry) :=
  refs.filter (fun p => isTrackedRole p.2.role && (entryKey p.2 = key))

/-- Everything of a line up to the first occurrence of the substring (the
whole line when absent); stripping the ref/nth annotation suffix appended by
the pipeline amounts to taking the part before the ref tag. -/
def takeUntilSubAux (sub : List Char) : List Char → List Char
  | [] => []
  | c :: cs => if sub <+: (c :: cs) then [] else c :: takeUntilSubAux sub cs

/-- String wrapper of takeUntilSubAux. -/
def takeUntilSub (sub s : String) : String := ⟨takeUntilSubAux sub.data s.data⟩

/-- Role and displayed name of an output or input line (the displayed name
ignores a falsy captured name, as the renderers do). -/
def lineRoleName (l : String) : Option (String × Option String) :=
  (matchLine l).map (fun m =>
    (m.role, if nameTruthy m.name then m.name else none))

/-- Test whether a line parses with an interactive role. -/
def isInterLine (l : String) : Bool :=
  match matchLine l with
  | some m => decide (lowerStr m.role ∈ INTERACTIVE_ROLES)
  | none => false

/-- Role/name sequence of the interactive-role lines of a tree, the common
skeleton of interactive-mode output and of the interactive-role sublines of
full-mode output. -/
def interCore (tree : String) : List (String × Option String) :=
  (splitLines tree).filterMap (fun l =>
    match matchLine l with
    | some m =>
      if decide (lowerStr m.role ∈ INTERACTIVE_ROLES) then
        some (m.role, if nameTruthy m.name then m.name else none)
      else none
    | none => none)

/-- The per-line functional of interCore: role and displayed name of a line
when its role is interactive, nothing otherwise. -/
def interProj (l : String) : Option (String × Option String) :=
  match matchLine l with
  | some m =>
    if decide (lowerStr m.role ∈ INTERACTIVE_ROLES) then
      some (m.role, if nameTruthy m.name then m.name else none)
    else none
  | none => none

/-- The facts about an emitted line that the compact post-pass inspects:
its indent level, whether it carries a ref tag, and whether it is
self-keeping (ref tag or inline colon content).  These are invariant across
runs with different maxDepth. -/
structure LineFeat where
  ind : Nat
  ref : Bool
  keep : Bool
deriving DecidableEq, Repr

/-- Feature extraction from an emitted line. -/
def featOf (l : String) : LineFeat :=
  ⟨getIndentLevel l, containsStr "[ref=" l,
   containsStr "[ref=" l || (containsChar l ':' && !endsWithChar l ':')⟩

/-- Keep decision of the compact pass at the feature level. -/
def featKeep (f : LineFeat) (rest : List LineFeat) : Bool :=
  f.keep || (rest.takeWhile (fun g => g.ind > f.ind)).any (fun g => g.ref)

/-- Number of lines the compact pass keeps, at the feature level. -/
def compactFeatCount : List LineFeat → Nat
  | [] => 0
  | f :: rest => (if featKeep f rest then 1 else 0) + compactFeatCount rest

/-- The per-line keep/feature decision of the full-mode pass as a function of
the source line alone: it does not depend on the threaded counter or tracker
state (ref ids and nth values never influence which lines are kept). -/
def featLineNI (opts : SnapshotOptions) (l : String) : Option LineFeat :=
  let depth := getIndentLevel l
  let tooDeep : Bool :=
    match opts.maxDepth with
    | some d => decide (depth > d)
    | none => false
  if tooDeep then none
  else
    match matchLine l with
    | none => some (featOf l)
    | some m =>
      if startsWithChar m.role '/' then some (featOf l)
      else
        let roleLower := lowerStr m.role
        let isInteractive := decide (roleLower ∈ INTERACTIVE_ROLES)
        let isContent := decide (roleLower ∈ CONTENT_ROLES)
        let isStructural := decide (roleLower ∈ STRUCTURAL_ROLES)
        if opts.compact && isStructural && !nameTruthy m.name then none
        else if isInteractive || (isContent && nameTruthy m.name) then
          some ⟨depth, true, true⟩
        else some (featOf l)

/-- Sparse embedding of one feature list into another: matched features are
equal and in order, inserted features lie strictly deeper than the bound d.
This relates the kept-line features of a run with maxDepth d to those of a
run with a larger depth limit. -/
inductive EmbedsNI (d : Nat) : List LineFeat → List LineFeat → Prop where
  | nil : EmbedsNI d [] []
  | cons (f : LineFeat) {l1 l2 : List LineFeat} :
      EmbedsNI d l1 l2 → EmbedsNI d (f :: l1) (f :: l2)
  | skip (f : LineFeat) {l1 l2 : List LineFeat} :
      d < f.ind → EmbedsNI d l1 l2 → EmbedsNI d l1 (f :: l2)

/-- Absence of the newline character, an invariant of all emitted lines. -/
def noNL (s : String) : Prop := s.data.contains '\n' = false

/-- Number of lines of an output text, as displayed. -/
def numLines (s : String) : Nat := (splitLines s).length

/-- Key invariant of the ref allocator within one snapshot invocation: the
RefMap keys are exactly e1 .. e(counter), in allocation order.  It holds
after the initial reset and is preserved by every pipeline operation, because
each drawn ref is immediately and uniquely bound in the map. -/
def GoodState (st : SnapState) : Prop :=
  st.refs.map Prod.fst = (List.range' 1 st.counter).map refName

/-- Duplicate-tracking invariant tying together, per key, the tracker count,
the tracked ref list and the stored tentative nth values of the tree-pipeline
entries, plus the absence of nth on cursor-detector entries. -/
def TrackInv (st : SnapState) : Prop :=
  (∀ key : String,
    ((assocGet st.counts key).getD 0 = (trackedGroup st.refs key).length) ∧
    ((assocGet st.refsByKey key).getD [] = (trackedGroup st.refs key).map Prod.fst) ∧
    ((trackedGroup st.refs key).map (fun p => p.2.nth) =
      (List.range (trackedGroup st.refs key).length).map some)) ∧
  (∀ p ∈ st.refs, isTrackedRole p.2.role = false → p.2.nth = none)

/-- Conjunction of both state invariants, the one actually threaded through
the pipeline lemmas. -/
def WfState (st : SnapState) : Prop := GoodState st ∧ TrackInv st

/-! Concrete inputs used to instantiate the theorems on closed runs. -/

/-- A page oracle with two interactive tree entries and no cursor query. -/
def sampleOracle : PageOracle where
  regionDom := none
  aria := fun _ => Except.ok "- button \"Go\"\n- link \"More\""
  cursorRaw := fun _ => none
  containsEl := fun _ _ => false

/-- A page oracle whose cursor query yields two same-labelled sibling
clickables while the aria tree is empty. -/
def dupCursorOracle : PageOracle where
  regionDom := none
  aria := fun _ => Except.ok ""
  cursorRaw := fun _ => some
    [{ elem := 0, selector := "div.a", text := "X", tagName := "div",
       hasOnClick := false, hasCursorPointer := true, hasTabIndex := false,
       hasTitle := true, hasAriaLabel := false, hasDirectCursorPointer := false,
       depth := 2, order := 0 },
     { elem := 1, selector := "div.b", text := "X", tagName := "div",
       hasOnClick := false, hasCursorPointer := true, hasTabIndex := false,
       hasTitle := true, hasAriaLabel := false, hasDirectCursorPointer := false,
       depth := 2, order := 0 }]
  containsEl := fun a b => decide (a = b)

/-- A page oracle whose aria tree repeats the same button name twice. -/
def dupTreeOracle : PageOracle where
  regionDom := none
  aria := fun _ => Except.ok "- button \"a\"\n- button \"a\""
  cursorRaw := fun _ => none
  containsEl := fun _ _ => false

/-- A page oracle whose every external round-trip fails. -/
def failingOracle : PageOracle where
  regionDom := none
  aria := fun _ => Except.error ()
  cursorRaw := fun _ => none
  containsEl := fun _ _ => false

/-- A minimal shell DOM: an on-screen contents pane and an on-screen sidebar
pane, nothing else. -/
def sampleRegionDom : RegionDom where
  qsa := fun s =>
    if s = "#contents-center" then [10]
    else if s = "#sidebar-center" then [20]
    else if s = "*" then [10, 20] else []
  visible := fun _ => true
  containsEl := fun a b => decide (a = b)
  depthEl := fun _ => 2
  uniqueSelector := fun e => if e = 10 then "#contents-center" else "#sidebar-center"
  fabSignal := fun _ => false

/-- A page oracle over the sample shell DOM. -/
def regionOracle : PageOracle where
  regionDom := some sampleRegionDom
  aria := fun sel =>
    if sel = some "#contents-center" then Except.ok "- button \"Go\""
    else if sel = some "#sidebar-center" then Except.ok "- link \"Nav\""
    else Except.ok ""
  cursorRaw := fun _ => some []
  containsEl := fun a b => decide (a = b)

end AgentBrowser

namespace AgentBrowser

/-! Basic lemmas about the string primitives. -/

theorem takeWhile_all {α} {p : α → Bool} :
    ∀ {l : List α}, (∀ c ∈ l, p c = true) → l.takeWhile p = l := by
  intro l h
  induction l with
  | nil => rfl
  | cons c cs ih =>
    have hc := h c (by simp)
    simp [List.takeWhile_cons, hc, ih (fun x hx => h x (by simp [hx]))]

theorem takeWhile_stop {α} {p : α → Bool} {l1 l2 : List α} {c : α}
    (h1 : ∀ x ∈ l1, p x = true) (hc : p c = false) :
    (l1 ++ c :: l2).takeWhile p = l1 := by
  induction l1 with
  | nil => simp [List.takeWhile_cons, hc]
  | cons a l ih =>
    have ha := h1 a (by simp)
    simp [List.takeWhile_cons, ha, ih (fun x hx => h1 x (by simp [hx]))]

theorem dropWhile_stop {α} {p : α → Bool} {l1 l2 : List α} {c : α}
    (h1 : ∀ x ∈ l1, p x = true) (hc : p c = false) :
    (l1 ++ c :: l2).dropWhile p = c :: l2 := by
  induction l1 with
  | nil => simp [List.dropWhile_cons, hc]
  | cons a l ih =>
    have ha := h1 a (by simp)
    simp [List.dropWhile_cons, ha, ih (fun x hx => h1 x (by simp [hx]))]

theorem word_not_space {c : Char} (h : isWordChar c = true) : isJsSpace c = false := by
  have hall : ∀ x ∈ jsSpaceChars, isWordChar x = false := by decide
  cases hsp : isJsSpace c with
  | false => rfl
  | true =>
    have hmem : c ∈ jsSpaceChars := of_decide_eq_true hsp
    rw [hall c hmem] at h
    exact absurd h (by simp)

theorem quote_not_space : isJsSpace '"' = false := by decide

theorem dash_not_space : isJsSpace '-' = false := by decide

theorem space_isJsSpace : isJsSpace ' ' = true := by decide

/-! Decimal rendering round-trips through the digit reader, which gives
injectivity of the generated ref identifiers. -/

theorem decDigitVal_decDigitChar {d : Nat} (h : d < 10) :
    decDigitVal (decDigitChar d) = d := by
  interval_cases d <;> decide

theorem isDigitChar_decDigitChar {d : Nat} (h : d < 10) :
    isDigitChar (decDigitChar d) = true := by
  interval_cases d <;> decide

theorem decValue_append {l : List Char} {c : Char} :
    decValue (l ++ [c]) = 10 * decValue l + decDigitVal c := by
  simp [decValue, List.foldl_append]
  ring

theorem decDigitsAux_spec :
    ∀ fuel n, n < fuel →
      decValue (decDigitsAux fuel n) = n ∧ decDigitsAux fuel n ≠ [] ∧
        ∀ c ∈ decDigitsAux fuel n, isDigitChar c = true := by
  intro fuel
  induction fuel with
  | zero => intro n h; omega
  | succ fuel ih =>
    intro n h
    by_cases h10 : n < 10
    · refine ⟨?_, by simp [decDigitsAux, h10], ?_⟩
      · simp [decDigitsAux, h10, decValue, decDigitVal_decDigitChar h10]
      · intro c hc
        simp [decDigitsAux, h10] at hc
        subst hc
        exact isDigitChar_decDigitChar h10
    · have hdiv : n / 10 < fuel := by
        have h1 : n / 10 < n := Nat.div_lt_self (by omega) (by omega)
        omega
      obtain ⟨hv, hne, hd⟩ := ih (n / 10) hdiv
      have hmod : n % 10 < 10 := Nat.mod_lt _ (by omega)
      refine ⟨?_, by simp [decDigitsAux, h10], ?_⟩
      · rw [decDigitsAux]
        simp only [h10, if_false]
        rw [decValue_append, hv, decDigitVal_decDigitChar hmod]
        omega
      · intro c hc
        rw [decDigitsAux] at hc
        simp only [h10, if_false, List.mem_append, List.mem_singleton] at hc
        rcases hc with hc | hc
        · exact hd c hc
        · subst hc; exact isDigitChar_decDigitChar hmod

theorem parseRefNum_refName (n : Nat) : parseRefNum (refName n) = some n := by
  obtain ⟨hv, hne, hd⟩ := decDigitsAux_spec (n + 1) n (by omega)
  have hdata : (refName n).data = 'e' :: decDigitsAux (n + 1) n := by
    simp [refName, natRepr, String.data_append]
  unfold parseRefNum
  rw [hdata]
  have h1 : decide (decDigitsAux (n + 1) n ≠ []) = true := by simp [hne]
  have h2 : (decDigitsAux (n + 1) n).all isDigitChar = true := by
    rw [List.all_eq_true]; exact hd
  simp [h1, h2, hv]

theorem refName_inj {m n : Nat} (h : refName m = refName n) : m = n := by
  have hm := parseRefNum_refName m
  have hn := parseRefNum_refName n
  rw [h, hn] at hm
  exact (Option.some.inj hm).symm

theorem numOf_refName (n : Nat) : numOf (refName n) = n := by
  simp [numOf, parseRefNum_refName]

/-! Association list lemmas. -/

theorem assocSet_fresh {β} {l : List (String × β)} {k : String} {v : β}
    (h : ∀ p ∈ l, p.1 ≠ k) : assocSet l k v = l ++ [(k, v)] := by
  induction l with
  | nil => rfl
  | cons p rest ih =>
    have hp : p.1 ≠ k := h p (by simp)
    cases p with
    | mk k' v' =>
      simp only [assocSet, if_neg hp, List.cons_append, List.cons.injEq, true_and]
      exact ih (fun q hq => h q (by simp [hq]))

theorem assocGet_set_same {β} {l : List (String × β)} {k : String} {v : β} :
    assocGet (assocSet l k v) k = some v := by
  induction l with
  | nil => simp [assocSet, assocGet]
  | cons p rest ih =>
    cases p with
    | mk k' v' =>
      by_cases hk : k' = k
      · subst hk; simp [assocSet, assocGet]
      · simp [assocSet, assocGet, hk, ih]

theorem assocGet_set_other {β} {l : List (String × β)} {k k' : String} {v : β}
    (h : k ≠ k') : assocGet (assocSet l k v) k' = assocGet l k' := by
  induction l with
  | nil => simp [assocSet, assocGet, h]
  | cons p rest ih =>
    cases p with
    | mk k0 v0 =>
      by_cases hk : k0 = k
      · subst hk; simp [assocSet, assocGet, h]
      · simp [assocSet, assocGet, hk, ih]

/-! Stable sort lemmas. -/

theorem insSorted_perm {α} (le : α → α → Bool) (a : α) (l : List α) :
    (insSorted le a l).Perm (a :: l) := by
  induction l with
  | nil => simp [insSorted]
  | cons b rest ih =>
    by_cases h : le a b = true
    · simp [insSorted, h]
    · simp only [insSorted, h, if_false]
      exact ((ih.cons b).trans (List.Perm.swap a b rest))

theorem sortBy_perm {α} (le : α → α → Bool) (l : List α) :
    (sortBy le l).Perm l := by
  induction l with
  | nil => simp [sortBy]
  | cons a rest ih =>
    exact (insSorted_perm le a (sortBy le rest)).trans (ih.cons a)

theorem mem_insSorted {α} {le : α → α → Bool} {a x : α} {l : List α} :
    x ∈ insSorted le a l ↔ x = a ∨ x ∈ l := by
  rw [(insSorted_perm le a l).mem_iff]
  simp

theorem pairwise_insSorted {α} {le : α → α → Bool}
    (htot : ∀ a b, le a b = true ∨ le b a = true)
    (htrans : ∀ a b c, le a b = true → le b c = true → le a c = true)
    {a : α} {l : List α} (h : l.Pairwise (fun x y => le x y = true)) :
    (insSorted le a l).Pairwise (fun x y => le x y = true) := by
  induction l with
  | nil => simp [insSorted]
  | cons b rest ih =>
    obtain ⟨hb, hrest⟩ := List.pairwise_cons.mp h
    by_cases hab : le a b = true
    · rw [insSorted, if_pos hab]
      refine List.pairwise_cons.mpr ⟨?_, List.pairwise_cons.mpr ⟨hb, hrest⟩⟩
      intro x hx
      rcases List.mem_cons.mp hx with rfl | hx
      · exact hab
      · exact htrans a b x hab (hb x hx)
    · rw [insSorted, if_neg hab]
      refine List.pairwise_cons.mpr ⟨?_, ih hrest⟩
      intro x hx
      rcases mem_insSorted.mp hx with h1 | hx
      · rw [h1]
        rcases htot a b with h2 | h2
        · exact absurd h2 hab
        · exact h2
      · exact hb x hx

theorem sortBy_sorted {α} {le : α → α → Bool}
    (htot : ∀ a b, le a b = true ∨ le b a = true)
    (htrans : ∀ a b c, le a b = true → le b c = true → le a c = true)
    (l : List α) : (sortBy le l).Pairwise (fun x y => le x y = true) := by
  induction l with
  | nil => simp [sortBy]
  | cons a rest ih => exact pairwise_insSorted htot htrans ih

end AgentBrowser

namespace AgentBrowser

/-! State invariant preservation through the pipeline. -/

theorem goodState_fresh {st : SnapState} (h : GoodState st) :
    ∀ p ∈ st.refs, p.1 ≠ refName (st.counter + 1) := by
  intro p hp heq
  have hmem : p.1 ∈ st.refs.map Prod.fst := List.mem_map_of_mem _ hp
  rw [h] at hmem
  obtain ⟨n, hn, hne⟩ := List.mem_map.mp hmem
  obtain ⟨i, hi, hni⟩ := List.mem_range'.mp hn
  have := refName_inj (hne.trans heq)
  omega

theorem assignTrackedRef_eq (role : String) (name : Option String) (st : SnapState) :
    assignTrackedRef role name st =
      ((refName (st.counter + 1), (assocGet st.counts (trackerKey role name)).getD 0),
        { counter := st.counter + 1,
          refs := assocSet st.refs (refName (st.counter + 1))
            { selector := buildSelector role name, role := role, name := name,
              nth := some ((assocGet st.counts (trackerKey role name)).getD 0) },
          counts := assocSet st.counts (trackerKey role name)
            ((assocGet st.counts (trackerKey role name)).getD 0 + 1),
          refsByKey := assocSet st.refsByKey (trackerKey role name)
            (((assocGet st.refsByKey (trackerKey role name)).getD []) ++
              [refName (st.counter + 1)]) }) := rfl

theorem trackedGroup_append (l1 l2 : List (String × RefEntry)) (key : String) :
    trackedGroup (l1 ++ l2) key = trackedGroup l1 key ++ trackedGroup l2 key := by
  simp [trackedGroup, List.filter_append]

theorem goodState_append_fresh {st : SnapState} (h : GoodState st) (e : RefEntry) :
    (st.refs ++ [(refName (st.counter + 1), e)]).map Prod.fst =
      (List.range' 1 (st.counter + 1)).map refName := by
  rw [List.map_append, h, List.range'_concat]
  simp [Nat.add_comm]

theorem assignTrackedRef_wf {role : String} {name : Option String} {st : SnapState}
    (hwf : WfState st) (hrole : isTrackedRole role = true) :
    WfState (assignTrackedRef role name st).2 := by
  unfold WfState TrackInv at hwf
  obtain ⟨hgood, htrack, hcursor⟩ := hwf
  have hfresh := goodState_fresh hgood
  rw [assignTrackedRef_eq]
  set key0 := trackerKey role name with hkey0
  set nth0 := (assocGet st.counts key0).getD 0 with hnth0
  set entry : RefEntry :=
    { selector := buildSelector role name, role := role, name := name,
      nth := some nth0 } with hentry
  have hset : assocSet st.refs (refName (st.counter + 1)) entry =
      st.refs ++ [(refName (st.counter + 1), entry)] := assocSet_fresh hfresh
  have hgrp1 : ∀ key, trackedGroup [(refName (st.counter + 1), entry)] key =
      if key = key0 then [(refName (st.counter + 1), entry)] else [] := by
    intro key
    by_cases hk : key = key0
    · subst hk
      simp [trackedGroup, List.filter, hentry, entryKey, hrole]
    · simp only [trackedGroup, List.filter]
      have : (isTrackedRole entry.role && decide (entryKey entry = key)) = false := by
        have : entryKey entry = key0 := rfl
        simp [this, Ne.symm hk, hk]
      simp [this, hk]
  constructor
  · show GoodState _
    unfold GoodState
    simp only [hset]
    exact goodState_append_fresh hgood entry
  · constructor
    · intro key
      obtain ⟨hcnt, hrbk, hnth⟩ := htrack key
      by_cases hk : key = key0
      · subst hk
        have hn : nth0 = (trackedGroup st.refs key0).length := by rw [hnth0, hcnt]
        refine ⟨?_, ?_, ?_⟩
        · rw [hset, trackedGroup_append, hgrp1]
          simp only [eq_self_iff_true, if_true, if_pos rfl, assocGet_set_same, Option.getD_some,
            List.length_append, List.length_singleton]
          omega
        · rw [hset, trackedGroup_append, hgrp1]
          simp only [eq_self_iff_true, if_true, if_pos rfl, assocGet_set_same, Option.getD_some,
            List.map_append]
          rw [hrbk]
          simp
        · rw [hset, trackedGroup_append, hgrp1]
          simp only [eq_self_iff_true, if_true, if_pos rfl, List.map_append, hnth,
            List.length_append, List.length_singleton]
          simp [hentry, List.range_succ, hn]
      · have hne : key0 ≠ key := fun h => hk h.symm
        refine ⟨?_, ?_, ?_⟩
        · rw [hset, trackedGroup_append, hgrp1]
          simp only [if_neg hk, List.append_nil, assocGet_set_other hne]
          exact hcnt
        · rw [hset, trackedGroup_append, hgrp1]
          simp only [if_neg hk, List.append_nil, assocGet_set_other hne]
          exact hrbk
        · rw [hset, trackedGroup_append, hgrp1]
          simp only [if_neg hk, List.append_nil]
          exact hnth
    · intro p hp hnt
      simp only [hset, List.mem_append, List.mem_singleton] at hp
      rcases hp with hp | hp
      · exact hcursor p hp hnt
      · subst hp
        simp only [hentry] at hnt
        rw [hrole] at hnt
        exact absurd hnt (by simp)

theorem cursor_insert_wf {st : SnapState} {e : RefEntry}
    (hwf : WfState st) (hrole : isTrackedRole e.role = false) (hnth : e.nth = none) :
    WfState { st with
      counter := st.counter + 1
      refs := assocSet st.refs (refName (st.counter + 1)) e } := by
  unfold WfState TrackInv at hwf
  obtain ⟨hgood, htrack, hcursor⟩ := hwf
  have hfresh := goodState_fresh hgood
  have hset : assocSet st.refs (refName (st.counter + 1)) e =
      st.refs ++ [(refName (st.counter + 1), e)] := assocSet_fresh hfresh
  have hgrp1 : ∀ key, trackedGroup [(refName (st.counter + 1), e)] key = [] := by
    intro key
    simp [trackedGroup, List.filter, hrole]
  constructor
  · show GoodState _
    unfold GoodState
    simp only [hset]
    exact goodState_append_fresh hgood e
  · constructor
    · intro key
      simp only [hset, trackedGroup_append, hgrp1 key, List.append_nil]
      exact htrack key
    · intro p hp hnt
      simp only [hset, List.mem_append, List.mem_singleton] at hp
      rcases hp with hp | hp
      · exact hcursor p hp hnt
      · subst hp; exact hnth

end AgentBrowser

namespace AgentBrowser

theorem processLine_state_cases (l : String) (opts : SnapshotOptions) (st : SnapState) :
    (processLine l opts st).2 = st ∨
      ∃ m : LineMatch, matchLine l = some m ∧
        isTrackedRole (lowerStr m.role) = true ∧
        (processLine l opts st).2 = (assignTrackedRef (lowerStr m.role) m.name st).2 := by
  unfold processLine
  dsimp only []
  split
  · left; rfl
  · split
    · split
      · left; rfl
      · left; rfl
    · rename_i m hm
      split
      · left; rfl
      · split
        · left; rfl
        · split
          · left; rfl
          · split
            · rename_i hcond
              rcases he : assignTrackedRef (lowerStr m.role) m.name st with ⟨⟨ref, nth⟩, st1⟩
              right
              refine ⟨m, hm, ?_, by rw [he]⟩
              unfold isTrackedRole
              rcases Bool.or_eq_true_iff.mp hcond with h | h
              · simp [h]
              · simp [Bool.and_eq_true_iff.mp h]
            · left; rfl

theorem processInteractiveLine_state_cases (l : String) (st : SnapState) :
    (processInteractiveLine l st).2 = st ∨
      ∃ m : LineMatch, matchLine l = some m ∧
        isTrackedRole (lowerStr m.role) = true ∧
        (processInteractiveLine l st).2 = (assignTrackedRef (lowerStr m.role) m.name st).2 := by
  unfold processInteractiveLine
  dsimp only []
  split
  · left; rfl
  · rename_i m hm
    split
    · rename_i hcond
      rcases he : assignTrackedRef (lowerStr m.role) m.name st with ⟨⟨ref, nth⟩, st1⟩
      right
      refine ⟨m, hm, ?_, by rw [he]⟩
      unfold isTrackedRole
      simp [hcond]
    · left; rfl

theorem processLine_wf {l : String} {opts : SnapshotOptions} {st : SnapState}
    (h : WfState st) : WfState (processLine l opts st).2 := by
  rcases processLine_state_cases l opts st with hc | ⟨m, _, hrole, hc⟩
  · rw [hc]; exact h
  · rw [hc]; exact assignTrackedRef_wf h hrole

theorem processInteractiveLine_wf {l : String} {st : SnapState}
    (h : WfState st) : WfState (processInteractiveLine l st).2 := by
  rcases processInteractiveLine_state_cases l st with hc | ⟨m, _, hrole, hc⟩
  · rw [hc]; exact h
  · rw [hc]; exact assignTrackedRef_wf h hrole

theorem foldLines_wf {step : String → SnapState → Option String × SnapState}
    (hstep : ∀ l st, WfState st → WfState (step l st).2) :
    ∀ (ls : List String) (st : SnapState), WfState st → WfState (foldLines step ls st).2 := by
  intro ls
  induction ls with
  | nil => intro st h; exact h
  | cons l rest ih =>
    intro st h
    have h1 := hstep l st h
    rcases hs : step l st with ⟨out, st1⟩
    rw [hs] at h1
    have h2 := ih st1 h1
    rcases hf : foldLines step rest st1 with ⟨outs, st2⟩
    rw [hf] at h2
    simp only [foldLines, hs, hf]
    exact h2

theorem processAriaTreeCore_wf {tree : String} {opts : SnapshotOptions} {st : SnapState}
    (h : WfState st) : WfState (processAriaTreeCore tree opts st).2 := by
  unfold processAriaTreeCore
  dsimp only []
  split
  · exact foldLines_wf (fun l st h => processInteractiveLine_wf h) _ _ h
  · exact foldLines_wf (fun l st h => processLine_wf h) _ _ h

theorem removeNth_refKeys (st : SnapState) :
    (removeNthFromNonDuplicates st).refs.map Prod.fst = st.refs.map Prod.fst := by
  unfold removeNthFromNonDuplicates
  simp only [List.map_map]
  congr 1
  funext p
  simp only [Function.comp_apply]
  split <;> rfl

theorem removeNth_counter (st : SnapState) :
    (removeNthFromNonDuplicates st).counter = st.counter := rfl

theorem removeNth_goodState {st : SnapState} (h : GoodState st) :
    GoodState (removeNthFromNonDuplicates st) := by
  unfold GoodState
  rw [removeNth_refKeys, removeNth_counter]
  exact h

theorem processAriaTree_wf {tree : String} {opts : SnapshotOptions} {st : SnapState}
    (h : WfState st) : WfState (processAriaTree tree opts st false).2 := by
  unfold processAriaTree
  have hcore := @processAriaTreeCore_wf tree opts st h
  rcases hc : processAriaTreeCore tree opts st with ⟨outs, st1⟩
  rw [hc] at hcore
  dsimp only []
  split
  · exact hcore
  · split
    · exact hcore
    · exact hcore

theorem appendCursorLines_wf :
    ∀ (els : List CursorElement) (st : SnapState),
      WfState st → WfState (appendCursorLines els st).2 := by
  intro els
  induction els with
  | nil => intro st h; exact h
  | cons el rest ih =>
    intro st h
    have hrole : isTrackedRole (cursorRole el) = false := by
      unfold cursorRole
      split
      · decide
      · split
        · decide
        · decide
    have h1 := cursor_insert_wf (e :=
      { selector := el.selector, role := cursorRole el, name := some el.text,
        nth := none }) h hrole rfl
    exact ih _ h1

end AgentBrowser

namespace AgentBrowser

theorem scopeAcquire_wf {oracle : PageOracle} {opts : SnapshotOptions} {st : SnapState}
    (h : WfState st) :
    WfState (match oracle.aria opts.selector with
      | Except.error _ => (emptyScopeText opts, st)
      | Except.ok t =>
        if t ≠ "" then processAriaTree t opts st false
        else (emptyScopeText opts, st)).2 := by
  rcases oracle.aria opts.selector with e | t
  · exact h
  · dsimp only []
    split
    · exact processAriaTree_wf h
    · exact h

theorem getEnhancedSnapshotForScope_wf {oracle : PageOracle} {opts : SnapshotOptions}
    {st : SnapState} (h : WfState st) :
    WfState (getEnhancedSnapshotForScope oracle opts st).2 := by
  unfold getEnhancedSnapshotForScope
  have h1 := @scopeAcquire_wf oracle opts st h
  rcases hacq : (match oracle.aria opts.selector with
      | Except.error _ => (emptyScopeText opts, st)
      | Except.ok t =>
        if t ≠ "" then processAriaTree t opts st false
        else (emptyScopeText opts, st)) with ⟨tree1, st1⟩
  rw [hacq] at h1
  dsimp only []
  rw [hacq]
  dsimp only []
  split
  · have h2 := appendCursorLines_wf (findCursorInteractiveElements oracle opts.selector) st1 h1
    rcases hac : appendCursorLines (findCursorInteractiveElements oracle opts.selector) st1
      with ⟨lines, st2⟩
    rw [hac] at h2
    dsimp only []
    split
    · exact h2
    · exact h2
  · exact h1

theorem regionSectionParts_wf {oracle : PageOracle} {opts : SnapshotOptions} :
    ∀ (sels : List String) (st : SnapState), WfState st →
      WfState (regionSectionParts oracle opts sels st).2 := by
  intro sels
  induction sels with
  | nil => intro st h; exact h
  | cons sel rest ih =>
    intro st h
    have h1 := @getEnhancedSnapshotForScope_wf
      oracle { opts with selector := some sel } st h
    rcases hs : getEnhancedSnapshotForScope oracle { opts with selector := some sel } st
      with ⟨tree1, st1⟩
    rw [hs] at h1
    have h2 := ih st1 h1
    rcases hp : regionSectionParts oracle opts rest st1 with ⟨parts, st2⟩
    rw [hp] at h2
    simp only [regionSectionParts, hs, hp]
    split
    · exact h2
    · exact h2

theorem buildMyheloRegionSection_wf {oracle : PageOracle} {opts : SnapshotOptions}
    {sels : List String} {st : SnapState} (h : WfState st) :
    WfState (buildMyheloRegionSection oracle opts sels st).2 := by
  unfold buildMyheloRegionSection
  have h1 := @regionSectionParts_wf oracle opts sels st h
  rcases hp : regionSectionParts oracle opts sels st with ⟨parts, st1⟩
  rw [hp] at h1
  dsimp only []
  split
  · exact h1
  · exact h1

theorem regionSections_wf {oracle : PageOracle} {opts : SnapshotOptions} :
    ∀ (rs : List SnapshotRegion) (st : SnapState), WfState st →
      WfState (regionSections oracle opts rs st).2 := by
  intro rs
  induction rs with
  | nil => intro st h; exact h
  | cons r rest ih =>
    intro st h
    have h1 := @buildMyheloRegionSection_wf oracle opts r.selectors st h
    rcases hb : buildMyheloRegionSection oracle opts r.selectors st with ⟨tree1, st1⟩
    rw [hb] at h1
    have h2 := ih st1 h1
    rcases hs : regionSections oracle opts rest st1 with ⟨secs, st2⟩
    rw [hs] at h2
    simp only [regionSections, hb, hs]
    exact h2

theorem initState_wf : WfState initState := by
  refine ⟨rfl, fun key => ⟨rfl, rfl, rfl⟩, ?_⟩
  intro p hp
  simp [initState] at hp

/-- Every top-level snapshot ends by stripping nth from the refs of a
well-formed intermediate state. -/
theorem getEnhancedSnapshot_shape (oracle : PageOracle) (opts : SnapshotOptions) :
    ∃ st : SnapState, WfState st ∧
      (getEnhancedSnapshot oracle opts).refs = (removeNthFromNonDuplicates st).refs := by
  unfold getEnhancedSnapshot
  dsimp only []
  split
  · rename_i result hres
    by_cases hsel : opts.selector = none
    · rw [if_pos hsel] at hres
      by_cases hreg : getMyheloActiveRegions oracle.regionDom ≠ []
      · rw [if_pos hreg] at hres
        refine ⟨(regionSections oracle opts (getMyheloActiveRegions oracle.regionDom)
          initState).2, regionSections_wf _ _ initState_wf, ?_⟩
        rcases hs : regionSections oracle opts (getMyheloActiveRegions oracle.regionDom)
          initState with ⟨secs, st1⟩
        rw [hs] at hres
        cases hres
        rfl
      · rw [if_neg hreg] at hres
        exact absurd hres (by simp)
    · rw [if_neg hsel] at hres
      exact absurd hres (by simp)
  · refine ⟨(getEnhancedSnapshotForScope oracle opts initState).2,
      getEnhancedSnapshotForScope_wf initState_wf, ?_⟩
    rcases hs : getEnhancedSnapshotForScope oracle opts initState with ⟨tree1, st1⟩
    rfl

end AgentBrowser

namespace AgentBrowser

theorem wfState_good {st : SnapState} (h : WfState st) : GoodState st :=
  (id h : GoodState st ∧ TrackInv st).1

theorem wfState_track {st : SnapState} (h : WfState st) : TrackInv st :=
  (id h : GoodState st ∧ TrackInv st).2

/-- C1: for every top-level snapshot invocation, the RefMap keys are
pairwise distinct, each matches e followed by a positive integer, their
numeric parts are strictly increasing in order of first appearance, and
numbering restarts from e1 at each call (the counter is reset before any ref
is generated). -/
theorem c1_ref_ids_unique_increasing (oracle : PageOracle) (opts : SnapshotOptions) :
    ((getEnhancedSnapshot oracle opts).refs.map Prod.fst) =
      (List.range' 1 (getEnhancedSnapshot oracle opts).refs.length).map refName ∧
    ((getEnhancedSnapshot oracle opts).refs.map Prod.fst).Nodup ∧
    (∀ k ∈ (getEnhancedSnapshot oracle opts).refs.map Prod.fst,
      ∃ n, parseRefNum k = some n ∧ 1 ≤ n) ∧
    ((getEnhancedSnapshot oracle opts).refs.map Prod.fst).Pairwise
      (fun a b => numOf a < numOf b) ∧
    ((getEnhancedSnapshot oracle opts).refs ≠ [] →
      ((getEnhancedSnapshot oracle opts).refs.map Prod.fst).head? = some (refName 1)) := by
  obtain ⟨st, hwf, hrefs⟩ := getEnhancedSnapshot_shape oracle opts
  have hkeys : (getEnhancedSnapshot oracle opts).refs.map Prod.fst =
      (List.range' 1 st.counter).map refName := by
    rw [hrefs, removeNth_refKeys]
    exact wfState_good hwf
  have hlen : (getEnhancedSnapshot oracle opts).refs.length = st.counter := by
    have := congrArg List.length hkeys
    simpa using this
  refine ⟨by rw [hlen]; exact hkeys, ?_, ?_, ?_, ?_⟩
  · rw [hkeys]
    exact (List.nodup_range' 1 st.counter).map (fun a b h => refName_inj h)
  · intro k hk
    rw [hkeys] at hk
    obtain ⟨n, hn, rfl⟩ := List.mem_map.mp hk
    obtain ⟨i, hi, hni⟩ := List.mem_range'.mp hn
    exact ⟨n, parseRefNum_refName n, by omega⟩
  · rw [hkeys]
    rw [List.pairwise_map]
    refine (List.pairwise_lt_range' 1 st.counter).imp ?_
    intro a b hab
    simpa [numOf_refName] using hab
  · intro hne
    have hc : st.counter ≠ 0 := by
      intro h0
      apply hne
      have := hkeys
      rw [h0] at this
      simp at this
      exact this
    obtain ⟨c, hc'⟩ := Nat.exists_eq_succ_of_ne_zero hc
    rw [hkeys, hc', List.range'_succ]
    simp

/-- C1 witness: a concrete two-entry snapshot whose keys are e1, e2. -/
theorem c1_witness :
    (getEnhancedSnapshot sampleOracle {}).refs.map Prod.fst = ["e1", "e2"] ∧
    ((getEnhancedSnapshot sampleOracle {}).refs.map Prod.fst).Nodup ∧
    ((getEnhancedSnapshot sampleOracle {}).refs.map Prod.fst).head? = some (refName 1) := by
  refine ⟨by decide, (c1_ref_ids_unique_increasing sampleOracle {}).2.1,
    (c1_ref_ids_unique_increasing sampleOracle {}).2.2.2.2 (by decide)⟩

end AgentBrowser

namespace AgentBrowser

theorem trackInv_keys {st : SnapState} (h : TrackInv st) (key : String) :
    ((assocGet st.counts key).getD 0 = (trackedGroup st.refs key).length) ∧
    ((assocGet st.refsByKey key).getD [] = (trackedGroup st.refs key).map Prod.fst) ∧
    ((trackedGroup st.refs key).map (fun p => p.2.nth) =
      (List.range (trackedGroup st.refs key).length).map some) :=
  (id h : (∀ _ : String, _ ∧ _ ∧ _) ∧ _).1 key

theorem trackInv_cursor {st : SnapState} (h : TrackInv st) :
    ∀ p ∈ st.refs, isTrackedRole p.2.role = false → p.2.nth = none :=
  (id h : (∀ _ : String, _ ∧ _ ∧ _) ∧ _).2

theorem trackedGroup_removeNth (st : SnapState) (key : String) :
    trackedGroup (removeNthFromNonDuplicates st).refs key =
      (trackedGroup st.refs key).map (fun p =>
        if isDuplicateKey st (trackerKey p.2.role p.2.name) then p
        else (p.1, { p.2 with nth := none })) := by
  unfold removeNthFromNonDuplicates trackedGroup
  rw [List.filter_map]
  congr 1
  simp only [Function.comp_def]
  apply List.filter_congr
  intro p _
  split <;> simp [entryKey, trackerKey]

theorem isDuplicateKey_eq {st : SnapState} (h : WfState st) (key : String) :
    isDuplicateKey st key = decide (2 ≤ (trackedGroup st.refs key).length) := by
  obtain ⟨_, hrbk, _⟩ := trackInv_keys (wfState_track h) key
  unfold isDuplicateKey
  rw [hrbk]
  simp only [List.length_map]
  exact decide_eq_decide.mpr (by omega)

theorem memGroup_key {refs : List (String × RefEntry)} {key : String}
    {p : String × RefEntry} (hp : p ∈ trackedGroup refs key) :
    trackerKey p.2.role p.2.name = key := by
  have hcond := List.of_mem_filter hp
  simp only [Bool.and_eq_true, decide_eq_true_eq] at hcond
  exact hcond.2

/-- Analysis of removeNthFromNonDuplicates on a well-formed state: duplicated
tree-pipeline keys keep their 0-based nth sequence, singleton keys lose nth,
and cursor entries never carry nth. -/
theorem removeNth_final {st : SnapState} (hwf : WfState st) (key : String) :
    (2 ≤ (trackedGroup (removeNthFromNonDuplicates st).refs key).length →
      (trackedGroup (removeNthFromNonDuplicates st).refs key).map (fun p => p.2.nth) =
        (List.range
          (trackedGroup (removeNthFromNonDuplicates st).refs key).length).map some) ∧
    ((trackedGroup (removeNthFromNonDuplicates st).refs key).length ≤ 1 →
      ∀ p ∈ trackedGroup (removeNthFromNonDuplicates st).refs key, p.2.nth = none) ∧
    (∀ p ∈ (removeNthFromNonDuplicates st).refs, isTrackedRole p.2.role = false →
      p.2.nth = none) := by
  obtain ⟨hcnt, hrbk, hnth⟩ := trackInv_keys (wfState_track hwf) key
  have hcur := trackInv_cursor (wfState_track hwf)
  have hgrp := trackedGroup_removeNth st key
  have hlen : (trackedGroup (removeNthFromNonDuplicates st).refs key).length =
      (trackedGroup st.refs key).length := by rw [hgrp, List.length_map]
  by_cases hdup : 2 ≤ (trackedGroup st.refs key).length
  · have hid : (trackedGroup st.refs key).map (fun p =>
        if isDuplicateKey st (trackerKey p.2.role p.2.name) then p
        else (p.1, { p.2 with nth := none })) = trackedGroup st.refs key := by
      have hfun : ∀ p ∈ trackedGroup st.refs key,
          (if isDuplicateKey st (trackerKey p.2.role p.2.name) then p
            else (p.1, { p.2 with nth := none })) = id p := by
        intro p hp
        rw [memGroup_key hp, isDuplicateKey_eq hwf key]
        simp [hdup]
      rw [List.map_congr_left hfun, List.map_id]
    refine ⟨?_, ?_, ?_⟩
    · intro _
      rw [hlen, hgrp, hid]
      exact hnth
    · intro hle
      rw [hlen] at hle
      omega
    · intro p hp hr
      unfold removeNthFromNonDuplicates at hp
      simp only [List.mem_map] at hp
      obtain ⟨q, hq, hpq⟩ := hp
      by_cases hd : isDuplicateKey st (trackerKey q.2.role q.2.name) = true
      · rw [← hpq]
        simp only [hd, if_true]
        refine hcur q hq ?_
        rw [← hpq] at hr
        simpa [hd] using hr
      · rw [← hpq]
        simp [hd]
  · have hnone : (trackedGroup (removeNthFromNonDuplicates st).refs key) =
        (trackedGroup st.refs key).map (fun p => (p.1, { p.2 with nth := none })) := by
      rw [hgrp]
      apply List.map_congr_left
      intro p hp
      rw [memGroup_key hp, isDuplicateKey_eq hwf key]
      simp [hdup]
    refine ⟨?_, ?_, ?_⟩
    · intro h2
      rw [hlen] at h2
      omega
    · intro _ p hp
      rw [hnone] at hp
      simp only [List.mem_map] at hp
      obtain ⟨q, _, hpq⟩ := hp
      rw [← hpq]
    · intro p hp hr
      unfold removeNthFromNonDuplicates at hp
      simp only [List.mem_map] at hp
      obtain ⟨q, hq, hpq⟩ := hp
      by_cases hd : isDuplicateKey st (trackerKey q.2.role q.2.name) = true
      · rw [← hpq]
        simp only [hd, if_true]
        refine hcur q hq ?_
        rw [← hpq] at hr
        simpa [hd] using hr
      · rw [← hpq]
        simp [hd]

/-- C2 (amended): among RefMap entries produced by the tree pipeline, a
(role, name) key occurring k at least 2 times carries nth values 0..k-1 in
discovery order and a key occurring once carries no nth, while entries
produced by the cursor detector never carry nth, even when duplicated. -/
theorem c2_nth_disambiguation (oracle : PageOracle) (opts : SnapshotOptions)
    (key : String) :
    (2 ≤ (trackedGroup (getEnhancedSnapshot oracle opts).refs key).length →
      (trackedGroup (getEnhancedSnapshot oracle opts).refs key).map (fun p => p.2.nth) =
        (List.range
          (trackedGroup (getEnhancedSnapshot oracle opts).refs key).length).map some) ∧
    ((trackedGroup (getEnhancedSnapshot oracle opts).refs key).length ≤ 1 →
      ∀ p ∈ trackedGroup (getEnhancedSnapshot oracle opts).refs key, p.2.nth = none) ∧
    (∀ p ∈ (getEnhancedSnapshot oracle opts).refs, isTrackedRole p.2.role = false →
      p.2.nth = none) := by
  obtain ⟨st, hwf, hrefs⟩ := getEnhancedSnapshot_shape oracle opts
  rw [hrefs]
  exact removeNth_final hwf key

/-- C2 counterexample: two cursor-detector entries share the key
clickable:X yet neither carries an nth value, contradicting the claim that
every k-times-repeated (role, name) key carries nth values 0..k-1. -/
theorem c2_counterexample :
    2 ≤ ((getEnhancedSnapshot dupCursorOracle { cursor := true }).refs.filter
        (fun p => entryKey p.2 = "clickable:X")).length ∧
    ((getEnhancedSnapshot dupCursorOracle { cursor := true }).refs.filter
        (fun p => entryKey p.2 = "clickable:X")).map (fun p => p.2.nth) ≠
      (List.range ((getEnhancedSnapshot dupCursorOracle { cursor := true }).refs.filter
        (fun p => entryKey p.2 = "clickable:X")).length).map some := by
  decide

/-- C2 witness: a duplicated tree key gets nth values 0 and 1, instantiating
the amended theorem on a concrete run. -/
theorem c2_witness :
    (trackedGroup (getEnhancedSnapshot dupTreeOracle {}).refs "button:a").map
        (fun p => p.2.nth) = [some 0, some 1] ∧
    2 ≤ (trackedGroup (getEnhancedSnapshot dupTreeOracle {}).refs "button:a").length := by
  have h := (c2_nth_disambiguation dupTreeOracle {} "button:a").1 (by decide)
  refine ⟨?_, by decide⟩
  rw [h]
  decide

end AgentBrowser

namespace AgentBrowser

/-- C3 counterexample: the snapshot.ts variant of getEnhancedSnapshot has no
try/catch around its top-level ariaSnapshot acquisition, so a failed
acquisition round-trip propagates out of the entry point instead of
degrading to an empty scope. -/
theorem c3_counterexample :
    getEnhancedSnapshotTS failingOracle {} = Except.error () := rfl

/-- C3 (amended): in the part_002 core, an acquisition failure is recovered
locally: the failed scope renders as the placeholder text with the threaded
state untouched, a failed cursor query contributes zero candidates, a failed
region query yields zero regions, and the top-level snapshot of a fully
failing page returns the placeholder with an empty RefMap rather than
propagating. -/
theorem c3_failure_recovery (oracle : PageOracle) (opts : SnapshotOptions)
    (haria : oracle.aria opts.selector = Except.error ())
    (hcur : oracle.cursorRaw opts.selector = none)
    (hreg : oracle.regionDom = none) :
    (∀ st : SnapState, getEnhancedSnapshotForScope oracle opts st =
      (emptyScopeText opts, st)) ∧
    findCursorInteractiveElements oracle opts.selector = [] ∧
    getMyheloActiveRegions oracle.regionDom = [] ∧
    getEnhancedSnapshot oracle opts =
      { tree := emptyScopeText opts, refs := [] } := by
  have hels : findCursorInteractiveElements oracle opts.selector = [] := by
    unfold findCursorInteractiveElements
    rw [hcur]
  have hscope : ∀ st : SnapState, getEnhancedSnapshotForScope oracle opts st =
      (emptyScopeText opts, st) := by
    intro st
    unfold getEnhancedSnapshotForScope
    rw [haria]
    dsimp only []
    split
    · rw [hels]
      simp [appendCursorLines]
    · rfl
  refine ⟨hscope, hels, by rw [hreg]; rfl, ?_⟩
  unfold getEnhancedSnapshot
  rw [hreg]
  dsimp only []
  simp only [getMyheloActiveRegions, ne_eq, not_true_eq_false]
  rw [hscope initState]
  split
  · rename_i result hres
    split at hres
    · simp at hres
    · simp at hres
  · rfl

/-- C3 witness: the fully failing page recovers to the empty placeholder. -/
theorem c3_witness :
    getEnhancedSnapshotForScope failingOracle {} initState = ("(empty)", initState) ∧
    getEnhancedSnapshot failingOracle {} = { tree := "(empty)", refs := [] } := by
  have h := c3_failure_recovery failingOracle {} rfl rfl rfl
  exact ⟨h.1 initState, h.2.2.2⟩

end AgentBrowser

namespace AgentBrowser

/-- C10: parseRef is total and never throws: a string beginning with the at
sign yields the unvalidated remainder, a string beginning with the ref=
marker yields the remainder after it, a bare e-number yields itself, and
everything else yields null. -/
theorem c10_parseRef_total (s : String) :
    (s.data.head? = some '@' → parseRef s = some ⟨s.data.drop 1⟩) ∧
    (s.data.take 4 = "ref=".data → parseRef s = some ⟨s.data.drop 4⟩) ∧
    (s.data.head? = some 'e' ∧ s.data.drop 1 ≠ [] ∧
        (s.data.drop 1).all isDigitChar = true → parseRef s = some s) ∧
    (s.data.head? ≠ some '@' → s.data.take 4 ≠ "ref=".data →
      ¬(s.data.head? = some 'e' ∧ s.data.drop 1 ≠ [] ∧
        (s.data.drop 1).all isDigitChar = true) →
      parseRef s = none) := by
  refine ⟨?_, ?_, ?_, ?_⟩
  · intro h
    unfold parseRef
    rw [if_pos (by simp [startsWithChar, h])]
  · intro h4
    have hhead : s.data.head? = some 'r' := by
      cases hsd : s.data with
      | nil => rw [hsd] at h4; simp at h4
      | cons c cs =>
        rw [hsd] at h4
        simp only [List.take_succ_cons] at h4
        have : c = 'r' := by
          have := congrArg List.head? h4
          simpa using this
        simp [this]
    unfold parseRef
    rw [if_neg (by simp [startsWithChar, hhead]), if_pos h4]
  · intro ⟨hhead, hne, hall⟩
    have hne' : s.data ≠ [] := by
      intro h0
      rw [h0] at hhead
      simp at hhead
    have htake : s.data.take 4 ≠ "ref=".data := by
      intro h4
      cases hsd : s.data with
      | nil => exact hne' hsd
      | cons c cs =>
        rw [hsd] at h4 hhead
        simp only [List.take_succ_cons] at h4
        have hc : c = 'r' := by
          have := congrArg List.head? h4
          simpa using this
        simp [hc] at hhead
    unfold parseRef
    rw [List.drop_one] at hne hall
    rw [if_neg (by simp [startsWithChar, hhead]), if_neg htake,
      if_pos (by simp [hne', hhead, hne]; exact List.all_eq_true.mp hall)]
  · intro h1 h2 h3
    unfold parseRef
    rw [if_neg (by simp [startsWithChar, h1]), if_neg h2, if_neg ?_]
    intro hc
    simp only [Bool.and_eq_true, decide_eq_true_eq] at hc
    exact h3 ⟨hc.1.1.2, hc.1.2, hc.2⟩

/-- C10 witness: the four behaviours on concrete arguments. -/
theorem c10_witness :
    parseRef "@foo" = some "foo" ∧ parseRef "ref=e7" = some "e7" ∧
    parseRef "e12" = some "e12" ∧ parseRef "xyz" = none := by
  refine ⟨?_, ?_, ?_, ?_⟩
  · have h := (c10_parseRef_total "@foo").1 (by decide)
    simpa using h
  · have h := (c10_parseRef_total "ref=e7").2.1 (by decide)
    simpa using h
  · exact (c10_parseRef_total "e12").2.2.1 (by decide)
  · exact (c10_parseRef_total "xyz").2.2.2 (by decide) (by decide) (by decide)

end AgentBrowser

namespace AgentBrowser

/-- C5 counterexample: a metadata line beginning with a slash is not passed
through regardless of flags: in interactive mode the very same line is
dropped (the grammar does not match it and interactive mode discards
non-matching lines). -/
theorem c5_counterexample :
    (processLine "/url: x" { interactive := true } initState).1 = none ∧
    (processLine "/url: x" {} initState).1 = some "/url: x" := by
  constructor
  · rfl
  · rfl

/-- C5 (amended): a line whose role token lies outside the Interactive,
Content and Structural sets, or which does not match the line grammar at all
(in particular any line beginning with a slash), is kept verbatim with no ref
by the per-line processor in non-interactive mode whenever its indent level
is within the depth limit; in interactive mode a non-matching line is
dropped. -/
theorem c5_plain_line_handling (l : String) (opts : SnapshotOptions) (st : SnapState) :
    (opts.interactive = false →
      (∀ d, opts.maxDepth = some d → getIndentLevel l ≤ d) →
      (matchLine l = none ∨
        ∃ m, matchLine l = some m ∧
          lowerStr m.role ∉ INTERACTIVE_ROLES ∧ lowerStr m.role ∉ CONTENT_ROLES ∧
          lowerStr m.role ∉ STRUCTURAL_ROLES) →
      processLine l opts st = (some l, st)) ∧
    (opts.interactive = true → matchLine l = none →
      processLine l opts st = (none, st)) := by
  constructor
  · intro hint hdepth hrole
    have htd : (match opts.maxDepth with
        | some d => decide (getIndentLevel l > d)
        | none => false) = false := by
      cases hmd : opts.maxDepth with
      | none => rfl
      | some d =>
        have := hdepth d hmd
        simp only [decide_eq_false_iff_not]
        omega
    unfold processLine
    dsimp only []
    rw [htd]
    simp only [Bool.false_eq_true, if_false]
    rcases hrole with hnone | ⟨m, hm, hI, hC, hS⟩
    · rw [hnone]
      simp [hint]
    · rw [hm]
      dsimp only []
      by_cases hsl : startsWithChar m.role '/' = true
      · simp [hsl]
      · simp [hsl, hint, hI, hC, hS]
  · intro hint hnone
    unfold processLine
    dsimp only []
    split
    · rfl
    · rw [hnone]

/-- C5 witness: an unknown-role line and a slash metadata line are kept
verbatim in full mode on a concrete run. -/
theorem c5_witness :
    processLine "- foobar \"z\"" {} initState = (some "- foobar \"z\"", initState) ∧
    processLine "  /url: x" { compact := true } initState =
      (some "  /url: x", initState) := by
  constructor
  · exact (c5_plain_line_handling "- foobar \"z\"" {} initState).1 rfl
      (by intro d hd; simp at hd)
      (Or.inr ⟨⟨"- ", "foobar", some "z", ""⟩, by decide, by decide, by decide, by decide⟩)
  · exact (c5_plain_line_handling "  /url: x" { compact := true } initState).1 rfl
      (by intro d hd; simp at hd) (Or.inl (by decide))

end AgentBrowser

namespace AgentBrowser

/-! Split/join round-trip lemmas. -/

theorem splitChar_no_sep {sep : Char} :
    ∀ {cs : List Char}, (∀ c ∈ cs, c ≠ sep) → splitChar sep cs = [cs] := by
  intro cs h
  induction cs with
  | nil => rfl
  | cons c rest ih =>
    have hc : c ≠ sep := h c (by simp)
    have hrest := ih (fun x hx => h x (by simp [hx]))
    rw [splitChar]
    simp only [hc, if_false, hrest]

theorem splitChar_append_sep {sep : Char} {l1 l2 : List Char}
    (h : ∀ c ∈ l1, c ≠ sep) :
    splitChar sep (l1 ++ sep :: l2) = l1 :: splitChar sep l2 := by
  induction l1 with
  | nil =>
    rw [List.nil_append, splitChar]
    simp
  | cons c rest ih =>
    have hc : c ≠ sep := h c (by simp)
    have hrest := ih (fun x hx => h x (by simp [hx]))
    rw [List.cons_append, splitChar]
    simp only [hc, if_false, hrest]

theorem splitChar_ne_nil {sep : Char} : ∀ (cs : List Char), splitChar sep cs ≠ [] := by
  intro cs
  induction cs with
  | nil => simp [splitChar]
  | cons c rest ih =>
    rw [splitChar]
    by_cases hc : c = sep
    · simp [hc]
    · simp only [hc, if_false]
      rcases hs : splitChar sep rest with _ | ⟨r, rs⟩
      · simp
      · simp

theorem splitChar_chunk_no_sep {sep : Char} :
    ∀ (cs : List Char), ∀ chunk ∈ splitChar sep cs, ∀ c ∈ chunk, c ≠ sep := by
  intro cs
  induction cs with
  | nil =>
    intro chunk hchunk
    simp [splitChar] at hchunk
    simp [hchunk]
  | cons c rest ih =>
    intro chunk hchunk
    rw [splitChar] at hchunk
    by_cases hc : c = sep
    · simp only [hc, if_true, eq_self_iff_true, List.mem_cons] at hchunk
      rcases hchunk with rfl | hchunk
      · simp
      · exact ih chunk hchunk
    · simp only [hc, if_false] at hchunk
      rcases hs : splitChar sep rest with _ | ⟨r, rs⟩
      · exact absurd hs (splitChar_ne_nil rest)
      · rw [hs] at hchunk
        simp only [List.mem_cons] at hchunk
        rcases hchunk with rfl | hchunk
        · intro x hx
          rcases List.mem_cons.mp hx with rfl | hx
          · exact hc
          · exact ih r (by rw [hs]; simp) x hx
        · exact ih chunk (by rw [hs]; simp [hchunk])

theorem splitLines_noNL (s : String) : ∀ l ∈ splitLines s, noNL l := by
  intro l hl
  unfold splitLines at hl
  obtain ⟨chunk, hchunk, rfl⟩ := List.mem_map.mp hl
  show chunk.contains '\n' = false
  have hc := splitChar_chunk_no_sep s.data chunk hchunk
  simp only [List.contains_eq_any_beq, List.any_eq_false]
  intro c hcm
  have := hc c hcm
  simp [this]
  exact fun h => this h.symm

theorem joinSep_cons_cons (sep s t : String) (ts : List String) :
    joinSep sep (s :: t :: ts) = s ++ sep ++ joinSep sep (t :: ts) := rfl

theorem joinLines_data_cons {s : String} {rest : List String} (h : rest ≠ []) :
    (joinLines (s :: rest)).data = s.data ++ '\n' :: (joinLines rest).data := by
  rcases rest with _ | ⟨t, ts⟩
  · exact absurd rfl h
  · show (joinSep "\n" (s :: t :: ts)).data = _
    rw [joinSep_cons_cons]
    simp [String.data_append]
    rfl

theorem split_join_id :
    ∀ (ls : List String), ls ≠ [] → (∀ l ∈ ls, noNL l) →
      splitLines (joinLines ls) = ls := by
  intro ls
  induction ls with
  | nil => intro h; exact absurd rfl h
  | cons s rest ih =>
    intro _ hno
    have hs : ∀ c ∈ s.data, c ≠ '\n' := by
      have := hno s (by simp)
      unfold noNL at this
      intro c hc heq
      subst heq
      simp [List.contains_eq_any_beq] at this
      exact absurd hc (by simpa using this)
    rcases hrest : rest with _ | ⟨t, ts⟩
    · unfold splitLines joinLines joinSep
      rw [splitChar_no_sep hs]
      rfl
    · rw [← hrest]
      have hne : rest ≠ [] := by rw [hrest]; simp
      unfold splitLines
      rw [joinLines_data_cons hne, splitChar_append_sep hs]
      have := ih hne (fun l hl => hno l (by simp [hl]))
      unfold splitLines at this
      simp only [List.map_cons, this]

end AgentBrowser

namespace AgentBrowser

/-- Soundness of the line parser: a successful match decomposes the line. -/
theorem matchLine_sound {l : String} {m : LineMatch} (h : matchLine l = some m) :
    ∃ ws0 ws1 rest,
      l.data = ws0 ++ '-' :: ws1 ++ m.role.data ++ rest ∧
      m.pre.data = ws0 ++ '-' :: ws1 ∧
      (∀ c ∈ ws0, isJsSpace c = true) ∧ (∀ c ∈ ws1, isJsSpace c = true) ∧
      m.role.data ≠ [] ∧ (∀ c ∈ m.role.data, isWordChar c = true) ∧
      ((∃ nm ws2, m.name = some nm ∧ ws2 ≠ [] ∧ (∀ c ∈ ws2, isJsSpace c = true) ∧
          (∀ c ∈ nm.data, c ≠ '"') ∧
          rest = ws2 ++ '"' :: nm.data ++ '"' :: m.suffix.data) ∨
        (m.name = none ∧ rest = m.suffix.data)) := by
  unfold matchLine at h
  dsimp only [] at h
  split at h
  case h_2 => cases h
  case h_1 r1 heq =>
    set ws0 := List.takeWhile isJsSpace l.data with hws0def
    have hl : l.data = ws0 ++ '-' :: r1 := by
      conv_lhs => rw [← List.takeWhile_append_dropWhile isJsSpace l.data]
      rw [heq]
    have hr1 : r1 = List.takeWhile isJsSpace r1 ++ List.dropWhile isJsSpace r1 :=
      (List.takeWhile_append_dropWhile isJsSpace r1).symm
    have hr2 : List.dropWhile isJsSpace r1 =
        List.takeWhile isWordChar (List.dropWhile isJsSpace r1) ++
          List.dropWhile isWordChar (List.dropWhile isJsSpace r1) :=
      (List.takeWhile_append_dropWhile isWordChar (List.dropWhile isJsSpace r1)).symm
    split at h
    case isTrue => cases h
    case isFalse hrole =>
      split at h
      case h_1 nm suf heqname =>
        cases h
        dsimp only []
        split at heqname
        case isTrue => cases heqname
        case isFalse hws2 =>
          split at heqname
          case h_2 => cases heqname
          case h_1 r4 heq2 =>
            split at heqname
            case h_2 => cases heqname
            case h_1 r5 heq3 =>
              cases heqname
              dsimp only []
              refine ⟨ws0, List.takeWhile isJsSpace r1,
                List.takeWhile isJsSpace (List.dropWhile isWordChar (List.dropWhile isJsSpace r1)) ++
                  '"' :: List.takeWhile (fun c => decide (c ≠ '"')) r4 ++ '"' :: r5,
                ?_, rfl, fun c hc => List.mem_takeWhile_imp hc,
                fun c hc => List.mem_takeWhile_imp hc, hrole,
                fun c hc => List.mem_takeWhile_imp hc, Or.inl ?_⟩
              · have hr3 : List.dropWhile isWordChar (List.dropWhile isJsSpace r1) =
                    List.takeWhile isJsSpace
                        (List.dropWhile isWordChar (List.dropWhile isJsSpace r1)) ++
                      '"' :: r4 := by
                  conv_lhs => rw [← List.takeWhile_append_dropWhile isJsSpace
                    (List.dropWhile isWordChar (List.dropWhile isJsSpace r1))]
                  rw [heq2]
                have hr4 : r4 = List.takeWhile (fun c => decide (c ≠ '"')) r4 ++ '"' :: r5 := by
                  conv_lhs => rw [← List.takeWhile_append_dropWhile
                    (fun c => decide (c ≠ '"')) r4]
                  rw [heq3]
                rw [hl]
                conv_lhs => rw [hr1, hr2, hr3, hr4]
                simp [List.append_assoc]
              · refine ⟨⟨List.takeWhile (fun c => decide (c ≠ '"')) r4⟩,
                  List.takeWhile isJsSpace (List.dropWhile isWordChar (List.dropWhile isJsSpace r1)),
                  rfl, hws2, fun c hc => List.mem_takeWhile_imp hc, ?_, by simp⟩
                intro c hc
                have := List.mem_takeWhile_imp hc
                simpa using this
      case h_2 heqname =>
        cases h
        dsimp only []
        refine ⟨ws0, List.takeWhile isJsSpace r1,
          List.dropWhile isWordChar (List.dropWhile isJsSpace r1),
          ?_, rfl, fun c hc => List.mem_takeWhile_imp hc,
          fun c hc => List.mem_takeWhile_imp hc, hrole,
          fun c hc => List.mem_takeWhile_imp hc, Or.inr ⟨rfl, rfl⟩⟩
        rw [hl]
        conv_lhs => rw [hr1, hr2]
        simp [List.append_assoc]

end AgentBrowser

namespace AgentBrowser

theorem takeWhile_cons_pos {α} {p : α → Bool} {a : α} {l : List α} (h : p a = true) :
    (a :: l).takeWhile p = a :: l.takeWhile p := by
  simp [List.takeWhile_cons, h]

theorem takeWhile_cons_neg {α} {p : α → Bool} {a : α} {l : List α} (h : p a = false) :
    (a :: l).takeWhile p = [] := by
  simp [List.takeWhile_cons, h]

theorem dropWhile_cons_pos {α} {p : α → Bool} {a : α} {l : List α} (h : p a = true) :
    (a :: l).dropWhile p = l.dropWhile p := by
  simp [List.dropWhile_cons, h]

theorem dropWhile_cons_neg {α} {p : α → Bool} {a : α} {l : List α} (h : p a = false) :
    (a :: l).dropWhile p = a :: l := by
  simp [List.dropWhile_cons, h]

theorem matchLine_build_named (ws0 ws1 rcs nm rest : List Char) (rc : Char)
    (h0 : ∀ c ∈ ws0, isJsSpace c = true) (h1 : ∀ c ∈ ws1, isJsSpace c = true)
    (hrc : isWordChar rc = true) (hrcs : ∀ c ∈ rcs, isWordChar c = true)
    (hnm : ∀ c ∈ nm, (c = '"') = False) :
    matchLine ⟨ws0 ++ '-' :: ws1 ++ (rc :: rcs) ++ ' ' :: '"' :: nm ++ '"' :: rest⟩ =
      some ⟨⟨ws0 ++ '-' :: ws1⟩, ⟨rc :: rcs⟩, some ⟨nm⟩, ⟨rest⟩⟩ := by
  have hnm' : ∀ c ∈ nm, (fun c => decide (c ≠ '"')) c = true := by
    intro c hc
    simpa using hnm c hc
  unfold matchLine
  dsimp only []
  simp only [List.cons_append, List.append_assoc, List.nil_append]
  rw [dropWhile_stop h0 dash_not_space, takeWhile_stop h0 dash_not_space]
  simp only []
  rw [takeWhile_stop h1 (word_not_space hrc), dropWhile_stop h1 (word_not_space hrc)]
  rw [takeWhile_cons_pos hrc, dropWhile_cons_pos hrc]
  rw [takeWhile_stop hrcs (by decide), dropWhile_stop hrcs (by decide)]
  simp only [List.cons_ne_nil, if_false]
  rw [takeWhile_cons_pos space_isJsSpace, takeWhile_cons_neg quote_not_space]
  rw [dropWhile_cons_pos space_isJsSpace, dropWhile_cons_neg quote_not_space]
  simp only [List.cons_ne_nil, if_false]
  rw [takeWhile_stop hnm' (by simp), dropWhile_stop hnm' (by simp)]
  simp [List.append_assoc]

theorem matchLine_build_unnamed (ws0 ws1 rcs rest : List Char) (rc : Char)
    (h0 : ∀ c ∈ ws0, isJsSpace c = true) (h1 : ∀ c ∈ ws1, isJsSpace c = true)
    (hrc : isWordChar rc = true) (hrcs : ∀ c ∈ rcs, isWordChar c = true) :
    matchLine ⟨ws0 ++ '-' :: ws1 ++ (rc :: rcs) ++ ' ' :: '[' :: rest⟩ =
      some ⟨⟨ws0 ++ '-' :: ws1⟩, ⟨rc :: rcs⟩, none, ⟨' ' :: '[' :: rest⟩⟩ := by
  unfold matchLine
  dsimp only []
  simp only [List.cons_append, List.append_assoc, List.nil_append]
  rw [dropWhile_stop h0 dash_not_space, takeWhile_stop h0 dash_not_space]
  simp only []
  rw [takeWhile_stop h1 (word_not_space hrc), dropWhile_stop h1 (word_not_space hrc)]
  rw [takeWhile_cons_pos hrc, dropWhile_cons_pos hrc]
  rw [takeWhile_stop hrcs (by decide), dropWhile_stop hrcs (by decide)]
  simp only [List.cons_ne_nil, if_false]
  rw [takeWhile_cons_pos space_isJsSpace, takeWhile_cons_neg (by decide :
    isJsSpace '[' = false)]
  rw [dropWhile_cons_pos space_isJsSpace, dropWhile_cons_neg (by decide :
    isJsSpace '[' = false)]
  simp

end AgentBrowser

namespace AgentBrowser

theorem structural_roles_disjoint {r : String}
    (h : decide (r ∈ STRUCTURAL_ROLES) = true) :
    decide (r ∈ INTERACTIVE_ROLES) = false ∧ decide (r ∈ CONTENT_ROLES) = false := by
  have hr : r ∈ STRUCTURAL_ROLES := of_decide_eq_true h
  have h1 : ∀ x ∈ STRUCTURAL_ROLES, x ∉ INTERACTIVE_ROLES := by decide
  have h2 : ∀ x ∈ STRUCTURAL_ROLES, x ∉ CONTENT_ROLES := by decide
  constructor
  · simp only [decide_eq_false_iff_not]
    exact h1 r hr
  · simp only [decide_eq_false_iff_not]
    exact h2 r hr

theorem processLine_compact (l : String) (opts : SnapshotOptions) (st : SnapState) :
    (processLine l { opts with compact := true } st).2 =
      (processLine l { opts with compact := false } st).2 ∧
    ((processLine l { opts with compact := true } st).1 =
        (processLine l { opts with compact := false } st).1 ∨
      ((processLine l { opts with compact := true } st).1 = none ∧
        (processLine l { opts with compact := false } st).1 = some l)) := by
  unfold processLine
  dsimp only []
  split
  · exact ⟨rfl, Or.inl rfl⟩
  · split
    · split
      · exact ⟨rfl, Or.inl rfl⟩
      · exact ⟨rfl, Or.inl rfl⟩
    · rename_i m hm
      split
      · exact ⟨rfl, Or.inl rfl⟩
      · split
        · exact ⟨rfl, Or.inl rfl⟩
        · simp only [Bool.false_and, Bool.true_and, Bool.false_eq_true, if_false]
          split
          · rename_i hstr
            have hS : decide (lowerStr m.role ∈ STRUCTURAL_ROLES) = true := by
              rcases Bool.and_eq_true_iff.mp hstr with ⟨h1, _⟩
              exact h1
            obtain ⟨hI, hC⟩ := structural_roles_disjoint hS
            have hname : nameTruthy m.name = false := by
              rcases Bool.and_eq_true_iff.mp hstr with ⟨_, h2⟩
              simpa using h2
            rw [if_neg (by simp [hI, hC, hname])]
            exact ⟨rfl, Or.inr ⟨rfl, rfl⟩⟩
          · split
            · exact ⟨rfl, Or.inl rfl⟩
            · exact ⟨rfl, Or.inl rfl⟩

theorem foldLines_compact (opts : SnapshotOptions) :
    ∀ (lines : List String) (st : SnapState),
      (foldLines (fun l s => processLine l { opts with compact := true } s) lines st).2 =
        (foldLines (fun l s => processLine l { opts with compact := false } s) lines st).2 ∧
      (foldLines (fun l s => processLine l { opts with compact := true } s) lines st).1.Sublist
        (foldLines (fun l s => processLine l { opts with compact := false } s) lines st).1 := by
  intro lines
  induction lines with
  | nil => intro st; exact ⟨rfl, List.Sublist.refl []⟩
  | cons l rest ih =>
    intro st
    obtain ⟨hst, hout⟩ := processLine_compact l opts st
    rcases hC : processLine l { opts with compact := true } st with ⟨outC, st1⟩
    rcases hF : processLine l { opts with compact := false } st with ⟨outF, st1'⟩
    rw [hC, hF] at hst hout
    dsimp only [] at hst hout
    subst hst
    obtain ⟨ihst, ihsub⟩ := ih st1
    simp only [foldLines, hC, hF]
    rcases hfC : foldLines (fun l s => processLine l { opts with compact := true } s)
      rest st1 with ⟨outsC, st2⟩
    rcases hfF : foldLines (fun l s => processLine l { opts with compact := false } s)
      rest st1 with ⟨outsF, st2'⟩
    rw [hfC, hfF] at ihst ihsub
    dsimp only [] at ihst ihsub ⊢
    subst ihst
    refine ⟨rfl, ?_⟩
    rcases hout with heq | ⟨hc1, hc2⟩
    · subst heq
      rcases outC with _ | o
      · exact ihsub
      · exact ihsub.cons₂ o
    · rw [hc1, hc2]
      exact ihsub.cons l

theorem compactAux_sublist : ∀ ls : List String, (compactAux ls).Sublist ls := by
  intro ls
  induction ls with
  | nil => exact List.Sublist.refl _
  | cons l rest ih =>
    rw [compactAux]
    by_cases hk : compactKeepLine l rest = true
    · rw [if_pos hk]
      exact ih.cons₂ l
    · rw [if_neg hk, List.nil_append]
      exact ih.cons l

theorem joinSep_len_mono (sep : String) {l1 l2 : List String}
    (h : l1.Sublist l2) :
    (joinSep sep l1).data.length ≤ (joinSep sep l2).data.length := by
  induction h with
  | slnil => exact Nat.le_refl _
  | cons a hsub ih =>
    rename_i la lb
    refine le_trans ih ?_
    rcases lb with _ | ⟨t, ts⟩
    · exact Nat.zero_le _
    · rw [joinSep_cons_cons]
      simp only [String.data_append, List.length_append]
      omega
  | cons₂ a hsub ih =>
    rename_i la lb
    rcases la with _ | ⟨x, xs⟩
    · rcases lb with _ | ⟨y, ys⟩
      · exact Nat.le_refl _
      · rw [joinSep_cons_cons]
        simp only [joinSep, String.data_append, List.length_append]
        omega
    · have hlbne : lb ≠ [] := by
        intro h0
        rw [h0] at hsub
        have := hsub.length_le
        simp at this
      rcases lb with _ | ⟨y, ys⟩
      · exact absurd rfl hlbne
      · rw [joinSep_cons_cons, joinSep_cons_cons]
        simp only [String.data_append, List.length_append]
        omega

end AgentBrowser

namespace AgentBrowser

theorem noNL_mk {s : String} (h : s.data.contains '\n' = false) : noNL s := h

theorem noNL_iff {s : String} : noNL s ↔ ∀ c ∈ s.data, c ≠ '\n' := by
  unfold noNL
  simp only [List.contains_eq_any_beq, List.any_eq_false, beq_iff_eq]
  constructor
  · intro h c hc heq
    exact (h c hc) heq.symm
  · intro h c hc heq
    exact (h c hc) heq.symm

theorem noNL_append {s t : String} (hs : noNL s) (ht : noNL t) : noNL (s ++ t) := by
  rw [noNL_iff] at hs ht ⊢
  intro c hc
  rw [String.data_append] at hc
  rcases List.mem_append.mp hc with hc | hc
  · exact hs c hc
  · exact ht c hc

theorem natRepr_noNL (n : Nat) : noNL (natRepr n) := by
  obtain ⟨_, _, hd⟩ := decDigitsAux_spec (n + 1) n (by omega)
  rw [noNL_iff]
  intro c hc
  have := hd c hc
  intro heq
  subst heq
  exact absurd this (by decide)

theorem refName_noNL (n : Nat) : noNL (refName n) :=
  noNL_append (noNL_mk (by decide)) (natRepr_noNL n)

theorem matchLine_pieces_noNL {l : String} {m : LineMatch}
    (hm : matchLine l = some m) (hl : noNL l) :
    noNL m.pre ∧ noNL m.role ∧ (∀ nm, m.name = some nm → noNL nm) ∧ noNL m.suffix := by
  obtain ⟨ws0, ws1, rest, hdec, hpre, _, _, _, _, hname⟩ := matchLine_sound hm
  rw [noNL_iff] at hl
  have hmem : ∀ c, c ∈ m.pre.data ∨ c ∈ m.role.data ∨ c ∈ rest → c ∈ l.data := by
    intro c hc
    rw [hdec]
    rcases hc with hc | hc | hc
    · rw [hpre] at hc
      simp only [List.mem_append, List.mem_cons] at hc ⊢
      tauto
    · simp only [List.mem_append, List.mem_cons]
      tauto
    · simp only [List.mem_append, List.mem_cons]
      tauto
  refine ⟨?_, ?_, ?_, ?_⟩
  · rw [noNL_iff]
    intro c hc
    exact hl c (hmem c (Or.inl hc))
  · rw [noNL_iff]
    intro c hc
    exact hl c (hmem c (Or.inr (Or.inl hc)))
  · intro nm hnm
    rw [noNL_iff]
    intro c hc
    rcases hname with ⟨nm', ws2, hn1, _, _, _, hrest⟩ | ⟨hn1, _⟩
    · rw [hnm] at hn1
      cases hn1
      refine hl c (hmem c (Or.inr (Or.inr ?_)))
      rw [hrest]
      simp only [List.mem_append, List.mem_cons]
      tauto
    · rw [hnm] at hn1
      cases hn1
  · rw [noNL_iff]
    intro c hc
    rcases hname with ⟨nm', ws2, _, _, _, _, hrest⟩ | ⟨_, hrest⟩
    · refine hl c (hmem c (Or.inr (Or.inr ?_)))
      rw [hrest]
      simp only [List.mem_append, List.mem_cons]
      tauto
    · refine hl c (hmem c (Or.inr (Or.inr ?_)))
      rw [← hrest] at hc
      exact hc

theorem renderFullLine_noNL {l : String} {m : LineMatch} {ref : String} {nth : Nat}
    (hm : matchLine l = some m) (hl : noNL l) (href : noNL ref) :
    noNL (renderFullLine m ref nth) := by
  obtain ⟨hpre, hrole, hname, hsuf⟩ := matchLine_pieces_noNL hm hl
  unfold renderFullLine
  refine noNL_append (noNL_append (noNL_append (noNL_append (noNL_append (noNL_append
    (noNL_append hpre hrole) ?_) (noNL_mk (by decide))) href) (noNL_mk (by decide))) ?_) ?_
  · split
    · rename_i hn
      rcases hm2 : m.name with _ | nm
      · rw [hm2] at hn
        simp [nameTruthy] at hn
      · refine noNL_append (noNL_append (noNL_mk (by decide)) ?_) (noNL_mk (by decide))
        have := hname nm hm2
        simpa using this
    · exact noNL_mk (by decide)
  · split
    · exact noNL_append (noNL_append (noNL_mk (by decide)) (natRepr_noNL nth))
        (noNL_mk (by decide))
    · exact noNL_mk (by decide)
  · split
    · exact hsuf
    · exact noNL_mk (by decide)

end AgentBrowser

namespace AgentBrowser

theorem join_split_data : ∀ cs : List Char,
    (joinLines ((splitChar '\n' cs).map String.mk)).data = cs := by
  intro cs
  induction cs with
  | nil => rfl
  | cons c cs ih =>
    rw [splitChar]
    by_cases hc : c = '\n'
    · rw [if_pos hc]
      rcases hr : splitChar '\n' cs with _ | ⟨r, rs⟩
      · exact absurd hr (splitChar_ne_nil cs)
      · rw [hr] at ih
        rw [List.map_cons, joinLines_data_cons (by simp)]
        rw [ih]
        simp [hc]
    · rw [if_neg hc]
      rcases hr : splitChar '\n' cs with _ | ⟨r, rs⟩
      · exact absurd hr (splitChar_ne_nil cs)
      · rw [hr] at ih
        rcases rs with _ | ⟨r2, rs2⟩
        · show (String.mk (c :: r)).data = c :: cs
          have hx : (String.mk r).data = cs := ih
          simpa using hx
        · rw [List.map_cons, joinLines_data_cons (by simp)]
          rw [List.map_cons, joinLines_data_cons (by simp)] at ih
          show (c :: r) ++ '\n' :: _ = c :: cs
          rw [← ih]
          rfl

theorem joinLines_splitLines (s : String) : joinLines (splitLines s) = s := by
  apply String.ext
  exact join_split_data s.data

theorem compactTree_char_le (s : String) :
    (compactTree s).data.length ≤ s.data.length := by
  unfold compactTree
  have h := joinSep_len_mono "\n" (compactAux_sublist (splitLines s))
  calc (joinLines (compactAux (splitLines s))).data.length
      ≤ (joinLines (splitLines s)).data.length := h
    _ = s.data.length := by rw [joinLines_splitLines]

theorem numLines_pos (s : String) : 1 ≤ numLines s := by
  unfold numLines splitLines
  rw [List.length_map]
  exact List.length_pos.mpr (splitChar_ne_nil s.data)

theorem numLines_joinLines_eq {ls : List String} (hne : ls ≠ [])
    (h : ∀ l ∈ ls, noNL l) : numLines (joinLines ls) = ls.length := by
  unfold numLines
  rw [split_join_id ls hne h]

theorem numLines_joinLines_le {l1 l2 : List String} (hs : l1.Sublist l2)
    (h2 : ∀ l ∈ l2, noNL l) :
    numLines (joinLines l1) ≤ numLines (joinLines l2) := by
  rcases he1 : l1 with _ | ⟨x, xs⟩
  · have h0 : numLines (joinLines []) = 1 := rfl
    rw [h0]
    exact numLines_pos _
  · rw [← he1]
    have hne1 : l1 ≠ [] := by rw [he1]; simp
    have hne2 : l2 ≠ [] := by
      intro h0
      rw [h0, List.sublist_nil] at hs
      exact hne1 hs
    rw [numLines_joinLines_eq hne1 (fun l hl => h2 l (hs.subset hl)),
        numLines_joinLines_eq hne2 h2]
    exact hs.length_le

theorem compactTree_numLines_le (s : String) :
    numLines (compactTree s) ≤ numLines s := by
  unfold compactTree
  have h := numLines_joinLines_le (compactAux_sublist (splitLines s))
    (splitLines_noNL s)
  rw [joinLines_splitLines] at h
  exact h

theorem processLine_out_noNL (l : String) (opts : SnapshotOptions)
    (st : SnapState) (hl : noNL l) :
    ∀ out, (processLine l opts st).1 = some out → noNL out := by
  intro out h
  rw [processLine] at h
  dsimp only [] at h
  split at h
  · simp at h
  · split at h
    · split at h
      · simp at h
      · dsimp only [] at h
        injection h with h
        exact h ▸ hl
    · rename_i m hm
      split at h
      · dsimp only [] at h
        injection h with h
        exact h ▸ hl
      · split at h
        · simp at h
        · split at h
          · simp at h
          · split at h
            · rw [assignTrackedRef_eq] at h
              dsimp only [] at h
              injection h with h
              exact h ▸ renderFullLine_noNL hm hl (refName_noNL _)
            · dsimp only [] at h
              injection h with h
              exact h ▸ hl

theorem foldLines_noNL {step : String → SnapState → Option String × SnapState}
    (hstep : ∀ l st out, noNL l → (step l st).1 = some out → noNL out) :
    ∀ (lines : List String) (st : SnapState), (∀ l ∈ lines, noNL l) →
      ∀ out ∈ (foldLines step lines st).1, noNL out := by
  intro lines
  induction lines with
  | nil => intro st _ out hout; simp [foldLines] at hout
  | cons l rest ih =>
    intro st hno out hout
    rw [foldLines] at hout
    dsimp only [] at hout
    rcases hs : step l st with ⟨o, st1⟩
    rw [hs] at hout
    dsimp only [] at hout
    rcases hf : foldLines step rest st1 with ⟨outs, st2⟩
    rw [hf] at hout
    dsimp only [] at hout
    have ihm := ih st1 (fun x hx => hno x (List.mem_cons_of_mem _ hx))
    rw [hf] at ihm
    rcases o with _ | o0
    · exact ihm out hout
    · rcases List.mem_cons.mp hout with h1 | h1
      · subst h1
        exact hstep l st out (hno l (List.mem_cons_self _ _)) (by rw [hs])
      · exact ihm out h1

theorem processAriaTreeCore_noninteractive (tree : String)
    (opts : SnapshotOptions) (st : SnapState) (hni : opts.interactive = false) :
    processAriaTreeCore tree opts st =
      foldLines (fun l s => processLine l opts s) (splitLines tree) st := by
  unfold processAriaTreeCore
  rw [hni]
  simp

theorem processAriaTree_out_full (tree : String) (opts : SnapshotOptions)
    (st : SnapState) (fin : Bool) (hni : opts.interactive = false)
    (hc : opts.compact = false) :
    (processAriaTree tree opts st fin).1 =
      joinLines (processAriaTreeCore tree opts st).1 := by
  unfold processAriaTree
  dsimp only []
  rcases h : processAriaTreeCore tree opts st with ⟨outs, st1⟩
  simp [hni, hc]

theorem processAriaTree_out_compact (tree : String) (opts : SnapshotOptions)
    (st : SnapState) (fin : Bool) (hni : opts.interactive = false)
    (hc : opts.compact = true) :
    (processAriaTree tree opts st fin).1 =
      compactTree (joinLines (processAriaTreeCore tree opts st).1) := by
  unfold processAriaTree
  dsimp only []
  rcases h : processAriaTreeCore tree opts st with ⟨outs, st1⟩
  simp [hni, hc]

end AgentBrowser

namespace AgentBrowser

/-- C7: with the same scope text, flags and tracker state, compact-mode output
is never longer than full-mode output, both in characters and in lines:
compactTree only filters lines out of the full rendering, and the compact
structural filter of processLine only drops lines the full mode would keep
verbatim. -/
theorem c7_compact_le_full (tree : String) (opts : SnapshotOptions)
    (st : SnapState) (fin : Bool) (hni : opts.interactive = false) :
    (processAriaTree tree { opts with compact := true } st fin).1.data.length ≤
      (processAriaTree tree { opts with compact := false } st fin).1.data.length ∧
    numLines (processAriaTree tree { opts with compact := true } st fin).1 ≤
      numLines (processAriaTree tree { opts with compact := false } st fin).1 := by
  obtain ⟨hst, hsub⟩ := foldLines_compact opts (splitLines tree) st
  have hCout := processAriaTree_out_compact tree { opts with compact := true }
    st fin hni rfl
  have hFout := processAriaTree_out_full tree { opts with compact := false }
    st fin hni rfl
  rw [processAriaTreeCore_noninteractive tree { opts with compact := true }
    st hni] at hCout
  rw [processAriaTreeCore_noninteractive tree { opts with compact := false }
    st hni] at hFout
  rw [hCout, hFout]
  have hFnoNL : ∀ out ∈ (foldLines
      (fun l s => processLine l { opts with compact := false } s)
      (splitLines tree) st).1, noNL out :=
    foldLines_noNL
      (fun l st0 out hl h => processLine_out_noNL l _ st0 hl out h)
      (splitLines tree) st (splitLines_noNL tree)
  constructor
  · exact le_trans (compactTree_char_le _) (joinSep_len_mono "\n" hsub)
  · exact le_trans (compactTree_numLines_le _) (numLines_joinLines_le hsub hFnoNL)

theorem c7_witness :
    ({ interactive := false, compact := false } : SnapshotOptions).interactive
        = false ∧
    ((processAriaTree "- button \"Go\"\n- generic:\n  - text \"hi\""
        { ({ interactive := false, compact := false } : SnapshotOptions) with
          compact := true } initState true).1.data.length ≤
      (processAriaTree "- button \"Go\"\n- generic:\n  - text \"hi\""
        { ({ interactive := false, compact := false } : SnapshotOptions) with
          compact := false } initState true).1.data.length ∧
    numLines (processAriaTree "- button \"Go\"\n- generic:\n  - text \"hi\""
        { ({ interactive := false, compact := false } : SnapshotOptions) with
          compact := true } initState true).1 ≤
      numLines (processAriaTree "- button \"Go\"\n- generic:\n  - text \"hi\""
        { ({ interactive := false, compact := false } : SnapshotOptions) with
          compact := false } initState true).1) :=
  ⟨rfl, c7_compact_le_full "- button \"Go\"\n- generic:\n  - text \"hi\""
    { interactive := false, compact := false } initState true rfl⟩

end AgentBrowser

namespace AgentBrowser

theorem getIndentLevel_renderFullLine {l : String} {m : LineMatch}
    (hm : matchLine l = some m) (ref : String) (nth : Nat) :
    getIndentLevel (renderFullLine m ref nth) = getIndentLevel l := by
  obtain ⟨ws0, ws1, rest, hdec, hpre, hws0, hws1, hrne, hrw, hname⟩ :=
    matchLine_sound hm
  unfold getIndentLevel
  have h1 : l.data.takeWhile isJsSpace = ws0 := by
    rw [hdec]
    simp only [List.cons_append, List.append_assoc]
    exact takeWhile_stop hws0 dash_not_space
  have h2 : (renderFullLine m ref nth).data.takeWhile isJsSpace = ws0 := by
    unfold renderFullLine
    simp only [String.data_append, hpre]
    simp only [List.cons_append, List.append_assoc]
    exact takeWhile_stop hws0 dash_not_space
  rw [h1, h2]

theorem renderFullLine_hasRef (m : LineMatch) (ref : String) (nth : Nat) :
    containsStr "[ref=" (renderFullLine m ref nth) = true := by
  have h1 : "[ref=".data <:+: (" [ref=" : String).data := by decide
  have h2 : (" [ref=" : String).data <:+: (renderFullLine m ref nth).data := by
    refine ⟨(m.pre ++ m.role ++
        (if nameTruthy m.name then " \"" ++ m.name.getD "" ++ "\"" else "")).data,
      (ref ++ "]" ++ (if nth > 0 then " [nth=" ++ natRepr nth ++ "]" else "") ++
        (if m.suffix ≠ "" then m.suffix else "")).data, ?_⟩
    unfold renderFullLine
    simp [String.data_append, List.append_assoc]
  exact decide_eq_true (h1.trans h2)

theorem featOf_renderFullLine {l : String} {m : LineMatch}
    (hm : matchLine l = some m) (ref : String) (nth : Nat) :
    featOf (renderFullLine m ref nth) = ⟨getIndentLevel l, true, true⟩ := by
  unfold featOf
  rw [getIndentLevel_renderFullLine hm, renderFullLine_hasRef]
  simp

theorem featLineNI_some {opts : SnapshotOptions} {l : String} {f : LineFeat}
    (h : featLineNI opts l = some f) :
    f.ind = getIndentLevel l ∧
      ∀ d, opts.maxDepth = some d → getIndentLevel l ≤ d := by
  unfold featLineNI at h
  dsimp only [] at h
  split at h
  · cases h
  · rename_i htd
    have hdepth : ∀ d, opts.maxDepth = some d → getIndentLevel l ≤ d := by
      intro d hd
      rw [hd] at htd
      simp at htd
      omega
    refine ⟨?_, hdepth⟩
    split at h
    · cases h; rfl
    · split at h
      · cases h; rfl
      · split at h
        · cases h
        · split at h
          · cases h; rfl
          · cases h; rfl

theorem processLine_featLine (l : String) (opts : SnapshotOptions) (st : SnapState)
    (hni : opts.interactive = false) :
    ((processLine l opts st).1).map featOf = featLineNI opts l := by
  unfold processLine featLineNI
  dsimp only []
  split
  · rfl
  · split
    · rw [hni]
      simp
    · rename_i m hm
      split
      · rfl
      · rw [hni]
        simp only [Bool.false_and, Bool.false_eq_true, if_false]
        split
        · rfl
        · split
          · rw [assignTrackedRef_eq]
            dsimp only []
            exact congrArg some (featOf_renderFullLine hm _ _)
          · rfl

theorem foldLines_feats {opts : SnapshotOptions} (hni : opts.interactive = false) :
    ∀ (lines : List String) (st : SnapState),
      ((foldLines (fun l s => processLine l opts s) lines st).1).map featOf =
        lines.filterMap (featLineNI opts) := by
  intro lines
  induction lines with
  | nil => intro st; rfl
  | cons l rest ih =>
    intro st
    have hstep := processLine_featLine l opts st hni
    rw [foldLines]
    dsimp only []
    rcases hp : processLine l opts st with ⟨o, st1⟩
    rw [hp] at hstep
    dsimp only [] at hstep ⊢
    rcases hf : foldLines (fun l s => processLine l opts s) rest st1 with ⟨outs, st2⟩
    dsimp only []
    rw [List.filterMap_cons, ← hstep]
    have ihr := ih st1
    rw [hf] at ihr
    rcases o with _ | o0
    · exact ihr
    · dsimp only []
      rw [List.map_cons, ihr]
      rfl

end AgentBrowser

namespace AgentBrowser

theorem featLineNI_shallow {o1 o2 : SnapshotOptions} {l : String}
    (hc : o1.compact = o2.compact)
    (h1 : ∀ d, o1.maxDepth = some d → getIndentLevel l ≤ d)
    (h2 : ∀ d, o2.maxDepth = some d → getIndentLevel l ≤ d) :
    featLineNI o1 l = featLineNI o2 l := by
  unfold featLineNI
  dsimp only []
  have ht1 : (match o1.maxDepth with
      | some d => decide (getIndentLevel l > d)
      | none => false) = false := by
    rcases hm : o1.maxDepth with _ | d
    · rfl
    · simp only []
      have := h1 d hm
      simp
      omega
  have ht2 : (match o2.maxDepth with
      | some d => decide (getIndentLevel l > d)
      | none => false) = false := by
    rcases hm : o2.maxDepth with _ | d
    · rfl
    · simp only []
      have := h2 d hm
      simp
      omega
  rw [ht1, ht2, hc]

theorem featLineNI_none_of_deep {o : SnapshotOptions} {l : String} {d : Nat}
    (hd : o.maxDepth = some d) (h : d < getIndentLevel l) :
    featLineNI o l = none := by
  unfold featLineNI
  dsimp only []
  rw [hd]
  simp only []
  rw [if_pos (by simp; omega)]

theorem filterMap_embeds {o1 o2 : SnapshotOptions} {d1 : Nat}
    (hc : o1.compact = o2.compact) (hd1 : o1.maxDepth = some d1)
    (hle : ∀ d, o2.maxDepth = some d → d1 ≤ d) :
    ∀ lines : List String,
      EmbedsNI d1 (lines.filterMap (featLineNI o1))
        (lines.filterMap (featLineNI o2)) := by
  intro lines
  induction lines with
  | nil => exact .nil
  | cons l rest ih =>
    by_cases hdeep : getIndentLevel l ≤ d1
    · have heq : featLineNI o1 l = featLineNI o2 l :=
        featLineNI_shallow hc
          (fun d hd => by rw [hd1] at hd; cases hd; exact hdeep)
          (fun d hd => le_trans hdeep (hle d hd))
      rw [List.filterMap_cons, List.filterMap_cons, ← heq]
      rcases h : featLineNI o1 l with _ | f
      · exact ih
      · exact .cons f ih
    · push_neg at hdeep
      have h1 : featLineNI o1 l = none := featLineNI_none_of_deep hd1 hdeep
      rw [List.filterMap_cons, List.filterMap_cons, h1]
      rcases h2 : featLineNI o2 l with _ | f
      · exact ih
      · exact .skip f (by rw [(featLineNI_some h2).1]; exact hdeep) ih

theorem embeds_length {d : Nat} {l1 l2 : List LineFeat} (h : EmbedsNI d l1 l2) :
    l1.length ≤ l2.length := by
  induction h with
  | nil => exact Nat.le_refl _
  | cons f h ih => simpa using ih
  | skip f hf h ih => exact le_trans ih (by simp)

theorem embeds_window {d : Nat} {l1 l2 : List LineFeat} (h : EmbedsNI d l1 l2)
    {a : Nat} (ha : a ≤ d) :
    (l1.takeWhile (fun g => g.ind > a)).Sublist
      (l2.takeWhile (fun g => g.ind > a)) := by
  induction h with
  | nil => exact List.Sublist.refl _
  | cons f h ih =>
    by_cases hf : f.ind > a
    · rw [List.takeWhile_cons, List.takeWhile_cons]
      rw [if_pos (by simpa using hf), if_pos (by simpa using hf)]
      exact ih.cons₂ f
    · rw [List.takeWhile_cons, List.takeWhile_cons]
      rw [if_neg (by simpa using hf), if_neg (by simpa using hf)]
  | skip f hf h ih =>
    rw [List.takeWhile_cons, if_pos (by simp; omega)]
    exact ih.cons f

end AgentBrowser

namespace AgentBrowser

theorem featKeep_mono {d : Nat} {f : LineFeat} {l1 l2 : List LineFeat}
    (h : EmbedsNI d l1 l2) (hf : f.ind ≤ d) (hk : featKeep f l1 = true) :
    featKeep f l2 = true := by
  unfold featKeep at hk ⊢
  rcases Bool.or_eq_true_iff.mp hk with h1 | h1
  · simp [h1]
  · refine Bool.or_eq_true_iff.mpr (Or.inr ?_)
    obtain ⟨g, hg, hgref⟩ := List.any_eq_true.mp h1
    exact List.any_eq_true.mpr ⟨g, (embeds_window h hf).subset hg, hgref⟩

theorem compactFeatCount_mono {d : Nat} {l1 l2 : List LineFeat}
    (h : EmbedsNI d l1 l2) (hall : ∀ f ∈ l1, f.ind ≤ d) :
    compactFeatCount l1 ≤ compactFeatCount l2 := by
  induction h with
  | nil => exact Nat.le_refl _
  | cons f h ih =>
    rename_i la lb
    rw [compactFeatCount, compactFeatCount]
    have hc := ih (fun g hg => hall g (List.mem_cons_of_mem _ hg))
    by_cases hk : featKeep f la = true
    · rw [if_pos hk,
        if_pos (featKeep_mono h (hall f (List.mem_cons_self _ _)) hk)]
      omega
    · rw [if_neg hk]
      split
      · omega
      · omega
  | skip f hf h ih =>
    rename_i la lb
    rw [compactFeatCount]
    have hc := ih hall
    split
    · omega
    · omega

theorem anyMap {α β} (f : α → β) (p : β → Bool) :
    ∀ l : List α, (l.map f).any p = l.any (fun a => p (f a)) := by
  intro l
  induction l with
  | nil => rfl
  | cons a l ih => simp [List.any_cons, ih]

theorem compactKeepLine_feat (l : String) (rest : List String) :
    compactKeepLine l rest = featKeep (featOf l) (rest.map featOf) := by
  unfold compactKeepLine featKeep featOf
  dsimp only []
  rw [List.takeWhile_map, anyMap]
  by_cases h1 : containsStr "[ref=" l = true
  · simp [h1]
  · rw [Bool.not_eq_true] at h1
    by_cases h2 : (containsChar l ':' && !endsWithChar l ':') = true
    · simp [h1, h2]
    · rw [Bool.not_eq_true] at h2
      simp only [h1, h2, Bool.false_or, if_false]
      rfl

theorem compactAux_length_feats : ∀ ls : List String,
    (compactAux ls).length = compactFeatCount (ls.map featOf) := by
  intro ls
  induction ls with
  | nil => rfl
  | cons l rest ih =>
    rw [compactAux, List.map_cons, compactFeatCount, List.length_append, ih,
      compactKeepLine_feat]
    split
    · rfl
    · rfl

theorem numLines_joinLines_le_of_len {l1 l2 : List String}
    (h1 : ∀ l ∈ l1, noNL l) (h2 : ∀ l ∈ l2, noNL l)
    (hlen : l1.length ≤ l2.length) :
    numLines (joinLines l1) ≤ numLines (joinLines l2) := by
  rcases he1 : l1 with _ | ⟨x, xs⟩
  · have h0 : numLines (joinLines []) = 1 := rfl
    rw [h0]
    exact numLines_pos _
  · rw [← he1]
    have hne1 : l1 ≠ [] := by rw [he1]; simp
    have hne2 : l2 ≠ [] := by
      intro h0
      rw [he1, h0] at hlen
      simp at hlen
    rw [numLines_joinLines_eq hne1 h1, numLines_joinLines_eq hne2 h2]
    exact hlen

end AgentBrowser

namespace AgentBrowser

theorem numLines_compactTree_le_of_count {l1 l2 : List String}
    (h1 : ∀ l ∈ l1, noNL l) (h2 : ∀ l ∈ l2, noNL l)
    (hcnt : compactFeatCount (l1.map featOf) ≤ compactFeatCount (l2.map featOf))
    (hlen : l1.length ≤ l2.length) :
    numLines (compactTree (joinLines l1)) ≤ numLines (compactTree (joinLines l2)) := by
  rcases he1 : l1 with _ | ⟨x, xs⟩
  · have h0 : numLines (compactTree (joinLines [])) = 1 := rfl
    rw [h0]
    exact numLines_pos _
  · rw [← he1]
    have hne1 : l1 ≠ [] := by rw [he1]; simp
    have hne2 : l2 ≠ [] := by
      intro h0
      rw [he1, h0] at hlen
      simp at hlen
    unfold compactTree
    rw [split_join_id l1 hne1 h1, split_join_id l2 hne2 h2]
    refine numLines_joinLines_le_of_len ?_ ?_ ?_
    · exact fun l hl => h1 l ((compactAux_sublist l1).subset hl)
    · exact fun l hl => h2 l ((compactAux_sublist l2).subset hl)
    · rw [compactAux_length_feats, compactAux_length_feats]
      exact hcnt

/-- C6: with interactive mode off, raising maxDepth never decreases the
number of lines of the processAriaTree output, whether or not compact mode
is on: per line, the depth filter is the only part of the keep decision that
depends on maxDepth, newly admitted lines lie strictly deeper than the old
bound, and the compact post-pass keeps every line it kept before once such
deeper lines are inserted. -/
theorem c6_maxDepth_monotonic (tree : String) (opts : SnapshotOptions)
    (st1 st2 : SnapState) (fin1 fin2 : Bool) (d1 d2 : Nat)
    (hni : opts.interactive = false) (hd : d1 ≤ d2) :
    numLines (processAriaTree tree { opts with maxDepth := some d1 } st1 fin1).1 ≤
      numLines (processAriaTree tree { opts with maxDepth := some d2 } st2 fin2).1 := by
  have hfe1 := @foldLines_feats { opts with maxDepth := some d1 } hni
    (splitLines tree) st1
  have hfe2 := @foldLines_feats { opts with maxDepth := some d2 } hni
    (splitLines tree) st2
  have hemb := @filterMap_embeds { opts with maxDepth := some d1 }
    { opts with maxDepth := some d2 } d1 rfl rfl
    (fun e he => by cases he; exact hd) (splitLines tree)
  have hall : ∀ f ∈ (splitLines tree).filterMap
      (featLineNI { opts with maxDepth := some d1 }), f.ind ≤ d1 := by
    intro f hf
    obtain ⟨l, hl, hfl⟩ := List.mem_filterMap.mp hf
    obtain ⟨hind, hdep⟩ := featLineNI_some hfl
    rw [hind]
    exact hdep d1 rfl
  have hno1 : ∀ out ∈ (foldLines
      (fun l s => processLine l { opts with maxDepth := some d1 } s)
      (splitLines tree) st1).1, noNL out :=
    foldLines_noNL (fun l st out hl h => processLine_out_noNL l _ st hl out h)
      (splitLines tree) st1 (splitLines_noNL tree)
  have hno2 : ∀ out ∈ (foldLines
      (fun l s => processLine l { opts with maxDepth := some d2 } s)
      (splitLines tree) st2).1, noNL out :=
    foldLines_noNL (fun l st out hl h => processLine_out_noNL l _ st hl out h)
      (splitLines tree) st2 (splitLines_noNL tree)
  have hlen : (foldLines
      (fun l s => processLine l { opts with maxDepth := some d1 } s)
      (splitLines tree) st1).1.length ≤
    (foldLines
      (fun l s => processLine l { opts with maxDepth := some d2 } s)
      (splitLines tree) st2).1.length := by
    have e1 := congrArg List.length hfe1
    have e2 := congrArg List.length hfe2
    rw [List.length_map] at e1 e2
    rw [e1, e2]
    exact embeds_length hemb
  by_cases hcomp : opts.compact = true
  · rw [processAriaTree_out_compact tree { opts with maxDepth := some d1 }
        st1 fin1 hni hcomp,
      processAriaTree_out_compact tree { opts with maxDepth := some d2 }
        st2 fin2 hni hcomp,
      processAriaTreeCore_noninteractive tree { opts with maxDepth := some d1 }
        st1 hni,
      processAriaTreeCore_noninteractive tree { opts with maxDepth := some d2 }
        st2 hni]
    refine numLines_compactTree_le_of_count hno1 hno2 ?_ hlen
    rw [hfe1, hfe2]
    exact compactFeatCount_mono hemb hall
  · rw [Bool.not_eq_true] at hcomp
    rw [processAriaTree_out_full tree { opts with maxDepth := some d1 }
        st1 fin1 hni hcomp,
      processAriaTree_out_full tree { opts with maxDepth := some d2 }
        st2 fin2 hni hcomp,
      processAriaTreeCore_noninteractive tree { opts with maxDepth := some d1 }
        st1 hni,
      processAriaTreeCore_noninteractive tree { opts with maxDepth := some d2 }
        st2 hni]
    exact numLines_joinLines_le_of_len hno1 hno2 hlen

theorem c6_witness :
    ({ interactive := false } : SnapshotOptions).interactive = false ∧
    (0 : Nat) ≤ 5 ∧
    numLines (processAriaTree "- generic:\n  - button \"A\""
        { ({ interactive := false } : SnapshotOptions) with maxDepth := some 0 }
        initState true).1 ≤
      numLines (processAriaTree "- generic:\n  - button \"A\""
        { ({ interactive := false } : SnapshotOptions) with maxDepth := some 5 }
        initState true).1 :=
  ⟨rfl, by decide,
    c6_maxDepth_monotonic "- generic:\n  - button \"A\""
      { interactive := false } initState initState true true 0 5 rfl (by decide)⟩

end AgentBrowser

namespace AgentBrowser

theorem matchLine_rendered (ws0 ws1 : List Char) (role : String)
    (name : Option String) (tail : String)
    (h0 : ∀ c ∈ ws0, isJsSpace c = true) (h1 : ∀ c ∈ ws1, isJsSpace c = true)
    (hrne : role.data ≠ []) (hrw : ∀ c ∈ role.data, isWordChar c = true)
    (hnm : ∀ nm, name = some nm → ∀ c ∈ nm.data, c ≠ '"') :
    matchLine (⟨ws0 ++ '-' :: ws1⟩ ++ role ++
        (if nameTruthy name then " \"" ++ name.getD "" ++ "\"" else "") ++
        " [ref=" ++ tail) =
      some ⟨⟨ws0 ++ '-' :: ws1⟩, role, (if nameTruthy name then name else none),
        " [ref=" ++ tail⟩ := by
  rcases hrd : role.data with _ | ⟨rc, rcs⟩
  · exact absurd hrd hrne
  have hrc : isWordChar rc = true := hrw rc (by rw [hrd]; simp)
  have hrcs : ∀ c ∈ rcs, isWordChar c = true := fun c hc =>
    hrw c (by rw [hrd]; simp [hc])
  have hrole2 : (⟨rc :: rcs⟩ : String) = role := by
    apply String.ext
    rw [hrd]
  by_cases ht : nameTruthy name = true
  · rcases name with _ | nm
    · simp [nameTruthy] at ht
    have hq : ∀ c ∈ nm.data, (c = '"') = False := by
      intro c hc
      simp [hnm nm rfl c hc]
    have hstr : (⟨ws0 ++ '-' :: ws1⟩ ++ role ++
        (if nameTruthy (some nm) then " \"" ++ (some nm).getD "" ++ "\"" else "") ++
        " [ref=" ++ tail : String) =
        ⟨ws0 ++ '-' :: ws1 ++ (rc :: rcs) ++ ' ' :: '"' :: nm.data ++ '"' ::
          (" [ref=" ++ tail).data⟩ := by
      apply String.ext
      simp [String.data_append, ht, hrd, List.append_assoc]
    rw [hstr, matchLine_build_named ws0 ws1 rcs nm.data ((" [ref=" ++ tail).data)
      rc h0 h1 hrc hrcs hq]
    rw [if_pos ht, hrole2]
  · rw [Bool.not_eq_true] at ht
    have hstr : (⟨ws0 ++ '-' :: ws1⟩ ++ role ++
        (if nameTruthy name then " \"" ++ name.getD "" ++ "\"" else "") ++
        " [ref=" ++ tail : String) =
        ⟨ws0 ++ '-' :: ws1 ++ (rc :: rcs) ++ ' ' :: '[' ::
          ("ref=" ++ tail).data⟩ := by
      apply String.ext
      simp [String.data_append, ht, hrd, List.append_assoc]
    rw [hstr, matchLine_build_unnamed ws0 ws1 rcs (("ref=" ++ tail).data)
      rc h0 h1 hrc hrcs]
    rw [ht, hrole2]
    simp only [Bool.false_eq_true, if_false]
    rfl

end AgentBrowser

namespace AgentBrowser

theorem matchLine_name_noQuote {l : String} {m : LineMatch}
    (hm : matchLine l = some m) :
    ∀ nm, m.name = some nm → ∀ c ∈ nm.data, c ≠ '"' := by
  obtain ⟨ws0, ws1, rest, hdec, hpre, hws0, hws1, hrne, hrw, hname⟩ :=
    matchLine_sound hm
  intro nm hn c hc
  rcases hname with ⟨nm2, ws2, hn1, _, _, hq, _⟩ | ⟨hn1, _⟩
  · rw [hn] at hn1
    cases hn1
    exact hq c hc
  · rw [hn] at hn1
    cases hn1

theorem role_not_slash {l : String} {m : LineMatch}
    (hm : matchLine l = some m) :
    startsWithChar m.role '/' = false := by
  obtain ⟨ws0, ws1, rest, hdec, hpre, hws0, hws1, hrne, hrw, hname⟩ :=
    matchLine_sound hm
  unfold startsWithChar
  rcases hrd : m.role.data with _ | ⟨rc, rcs⟩
  · exact absurd hrd hrne
  · have hne : rc ≠ '/' := by
      intro h
      have := hrw rc (by rw [hrd]; simp)
      rw [h] at this
      exact absurd this (by decide)
    simp [hne]

theorem matchLine_renderFullLine {l : String} {m : LineMatch}
    (hm : matchLine l = some m) (ref : String) (nth : Nat) :
    matchLine (renderFullLine m ref nth) =
      some ⟨m.pre, m.role, (if nameTruthy m.name then m.name else none),
        " [ref=" ++ (ref ++ "]" ++
          (if nth > 0 then " [nth=" ++ natRepr nth ++ "]" else "") ++
          (if m.suffix ≠ "" then m.suffix else ""))⟩ := by
  obtain ⟨ws0, ws1, rest, hdec, hpre, hws0, hws1, hrne, hrw, hname⟩ :=
    matchLine_sound hm
  have hpre2 : m.pre = ⟨ws0 ++ '-' :: ws1⟩ := String.ext hpre
  have heq : renderFullLine m ref nth =
      (⟨ws0 ++ '-' :: ws1⟩ : String) ++ m.role ++
        (if nameTruthy m.name then " \"" ++ m.name.getD "" ++ "\"" else "") ++
        " [ref=" ++ (ref ++ "]" ++
          (if nth > 0 then " [nth=" ++ natRepr nth ++ "]" else "") ++
          (if m.suffix ≠ "" then m.suffix else "")) := by
    apply String.ext
    unfold renderFullLine
    simp [String.data_append, List.append_assoc, hpre]
  rw [heq, matchLine_rendered ws0 ws1 m.role m.name _ hws0 hws1 hrne hrw
    (matchLine_name_noQuote hm), hpre2]

theorem matchLine_renderInteractiveLine {l : String} {m : LineMatch}
    (hm : matchLine l = some m) (ref : String) (nth : Nat) :
    matchLine (renderInteractiveLine m ref nth) =
      some ⟨⟨[] ++ '-' :: [' ']⟩, m.role,
        (if nameTruthy m.name then m.name else none),
        " [ref=" ++ (ref ++ "]" ++
          (if nth > 0 then " [nth=" ++ natRepr nth ++ "]" else "") ++
          (if m.suffix ≠ "" && containsChar m.suffix '[' then m.suffix
            else ""))⟩ := by
  obtain ⟨ws0, ws1, rest, hdec, hpre, hws0, hws1, hrne, hrw, hname⟩ :=
    matchLine_sound hm
  have heq : renderInteractiveLine m ref nth =
      (⟨[] ++ '-' :: [' ']⟩ : String) ++ m.role ++
        (if nameTruthy m.name then " \"" ++ m.name.getD "" ++ "\"" else "") ++
        " [ref=" ++ (ref ++ "]" ++
          (if nth > 0 then " [nth=" ++ natRepr nth ++ "]" else "") ++
          (if m.suffix ≠ "" && containsChar m.suffix '[' then m.suffix
            else "")) := by
    apply String.ext
    unfold renderInteractiveLine
    simp [String.data_append, List.append_assoc]
  rw [heq, matchLine_rendered [] [' '] m.role m.name _ (by simp) (by decide)
    hrne hrw (matchLine_name_noQuote hm)]

theorem displayName_collapse (name : Option String) :
    (if nameTruthy (if nameTruthy name then name else none) = true
      then (if nameTruthy name then name else none) else none) =
    (if nameTruthy name then name else none) := by
  by_cases ht : nameTruthy name = true
  · simp [ht]
  · rw [Bool.not_eq_true] at ht
    simp only [ht, Bool.false_eq_true, if_false]
    decide

end AgentBrowser

namespace AgentBrowser

theorem processInteractiveLine_proj (l : String) (st : SnapState) :
    ((processInteractiveLine l st).1).bind lineRoleName = interProj l := by
  unfold processInteractiveLine interProj
  dsimp only []
  rcases hm : matchLine l with _ | m
  · rfl
  · dsimp only []
    split
    · rename_i hcond
      rw [assignTrackedRef_eq]
      dsimp only []
      rw [Option.some_bind, lineRoleName, matchLine_renderInteractiveLine hm]
      dsimp only [Option.map]
      rw [displayName_collapse]
    · rfl

theorem processLine_plain_proj (l : String) (st : SnapState) :
    ((processLine l ⟨false, false, none, false, none⟩ st).1).bind
        (fun out => if isInterLine out then lineRoleName out else none) =
      interProj l := by
  unfold processLine interProj
  dsimp only []
  rcases hm : matchLine l with _ | m
  · simp only [Bool.false_eq_true, if_false]
    rw [Option.some_bind]
    rw [show isInterLine l = false from by unfold isInterLine; rw [hm]]
    simp only [Bool.false_eq_true, if_false]
  · dsimp only []
    rw [role_not_slash hm]
    simp only [Bool.false_eq_true, Bool.false_and, if_false]
    split
    · rename_i hcond
      rw [assignTrackedRef_eq]
      dsimp only []
      rw [Option.some_bind]
      rw [show isInterLine (renderFullLine m (refName (st.counter + 1))
          ((assocGet st.counts (trackerKey (lowerStr m.role) m.name)).getD 0)) =
          decide (lowerStr m.role ∈ INTERACTIVE_ROLES) from by
        unfold isInterLine
        rw [matchLine_renderFullLine hm]]
      by_cases hI : decide (lowerStr m.role ∈ INTERACTIVE_ROLES) = true
      · rw [if_pos hI, if_pos hI]
        rw [lineRoleName, matchLine_renderFullLine hm]
        dsimp only [Option.map]
        rw [displayName_collapse]
      · rw [Bool.not_eq_true] at hI
        rw [hI]
        simp only [Bool.false_eq_true, if_false]
    · rename_i hcond
      rw [Option.some_bind]
      have hI : decide (lowerStr m.role ∈ INTERACTIVE_ROLES) = false := by
        rcases hb : decide (lowerStr m.role ∈ INTERACTIVE_ROLES) with _ | _
        · rfl
        · exact absurd (Bool.or_eq_true_iff.mpr (Or.inl hb)) hcond
      rw [show isInterLine l = decide (lowerStr m.role ∈ INTERACTIVE_ROLES) from
        by unfold isInterLine; rw [hm]]
      rw [hI]
      simp only [Bool.false_eq_true, if_false]

theorem foldLines_filterMapProj {β : Type}
    {step : String → SnapState → Option String × SnapState}
    {g : String → Option β} {pf : String → Option β}
    (hstep : ∀ l st, ((step l st).1).bind g = pf l) :
    ∀ (lines : List String) (st : SnapState),
      ((foldLines step lines st).1).filterMap g = lines.filterMap pf := by
  intro lines
  induction lines with
  | nil => intro st; rfl
  | cons l rest ih =>
    intro st
    have hs := hstep l st
    rw [foldLines]
    dsimp only []
    rcases hp : step l st with ⟨o, st1⟩
    rw [hp] at hs
    dsimp only [] at hs
    rcases hf : foldLines step rest st1 with ⟨outs, st2⟩
    dsimp only []
    rw [List.filterMap_cons, ← hs]
    have ihr := ih st1
    rw [hf] at ihr
    rcases o with _ | o0
    · exact ihr
    · rw [Option.some_bind]
      rw [List.filterMap_cons, ihr]

end AgentBrowser

namespace AgentBrowser

theorem interCore_eq (tree : String) :
    interCore tree = (splitLines tree).filterMap interProj := rfl

/-- C4 (amended): interactive-mode output and the interactive-role lines of
full-mode output carry the same role/name sequence, in the same order — but
not the same line text: interactive mode rewrites the prefix to dash space,
drops non-bracket suffixes and ignores maxDepth, so the correspondence is at
the role/name level, not line-for-line modulo ref/nth annotations. -/
theorem c4_interactive_projection (tree : String) (st1 st2 : SnapState) :
    ((processAriaTreeCore tree { interactive := true } st1).1).filterMap
        lineRoleName = interCore tree ∧
    (((processAriaTreeCore tree ⟨false, false, none, false, none⟩ st2).1).filter
        isInterLine).filterMap lineRoleName = interCore tree := by
  constructor
  · have h := foldLines_filterMapProj processInteractiveLine_proj
      (splitLines tree) st1
    have hcore : processAriaTreeCore tree { interactive := true } st1 =
        foldLines processInteractiveLine (splitLines tree) st1 := by
      unfold processAriaTreeCore
      simp
    rw [hcore, interCore_eq]
    exact h
  · have h := foldLines_filterMapProj processLine_plain_proj
      (splitLines tree) st2
    have hcore : processAriaTreeCore tree ⟨false, false, none, false, none⟩ st2 =
        foldLines (fun l s => processLine l ⟨false, false, none, false, none⟩ s)
          (splitLines tree) st2 := by
      unfold processAriaTreeCore
      simp
    rw [hcore, List.filterMap_filter, interCore_eq]
    exact h

/-- C4 counterexample: on an indented interactive line, the interactive-mode
output line differs from the full-mode output line even after stripping the
ref/nth annotation tail, because the prefix is rewritten to dash space. -/
theorem c4_counterexample :
    ¬ ∀ l ∈ (processAriaTreeCore "  - button \"x\"" { interactive := true }
        initState).1,
      takeUntilSub " [ref=" l ∈
        ((processAriaTreeCore "  - button \"x\""
            ⟨false, false, none, false, none⟩
            initState).1.map (takeUntilSub " [ref=")) := by
  decide

end AgentBrowser

namespace AgentBrowser

theorem selectNonOverlapping_pairwise (contains : Nat → Nat → Bool) :
    ∀ (l acc : List Candidate),
      acc.Pairwise (fun a b => contains a.elem b.elem = false ∧
        contains b.elem a.elem = false) →
      (selectNonOverlapping contains acc l).Pairwise
        (fun a b => contains a.elem b.elem = false ∧
          contains b.elem a.elem = false) := by
  intro l
  induction l with
  | nil => intro acc h; exact h
  | cons c rest ih =>
    intro acc h
    rw [selectNonOverlapping]
    by_cases hov : (acc.any fun ch =>
        contains ch.elem c.elem || contains c.elem ch.elem) = true
    · rw [if_pos hov]
      exact ih acc h
    · rw [if_neg hov]
      refine ih (acc ++ [c]) ?_
      rw [List.pairwise_append]
      refine ⟨h, List.pairwise_singleton _ _, ?_⟩
      intro a ha b hb
      rw [List.mem_singleton] at hb
      rw [hb]
      have hpa : (contains a.elem c.elem || contains c.elem a.elem) = false := by
        rcases hb2 : (contains a.elem c.elem || contains c.elem a.elem)
          with _ | _
        · rfl
        · exact absurd (List.any_eq_true.mpr ⟨a, ha, hb2⟩) hov
      exact ⟨(Bool.or_eq_false_iff.mp hpa).1, (Bool.or_eq_false_iff.mp hpa).2⟩

theorem orderLe_total : ∀ a b : Candidate,
    orderLe a b = true ∨ orderLe b a = true := by
  intro a b
  unfold orderLe
  rcases Nat.le_total a.order b.order with h | h
  · left; simpa using h
  · right; simpa using h

theorem orderLe_trans : ∀ a b c : Candidate,
    orderLe a b = true → orderLe b c = true → orderLe a c = true := by
  intro a b c h1 h2
  unfold orderLe at h1 h2 ⊢
  simp only [decide_eq_true_eq] at h1 h2 ⊢
  omega

/-- C8: the score/containment deduplication of the cursor detector accepts a
mutually-exclusive set — no accepted candidate contains another, in either
direction — and emits the accepted candidates re-sorted into discovery
order: the output is pairwise non-containing, pairwise ordered by discovery
order, and a permutation of the acceptance walk over the comparator-sorted
candidate list. -/
theorem c8_cursor_walk (contains : Nat → Nat → Bool) (cs : List Candidate) :
    (dedupeCursorCandidates contains cs).Pairwise
        (fun a b => contains a.elem b.elem = false ∧
          contains b.elem a.elem = false) ∧
    (dedupeCursorCandidates contains cs).Pairwise
        (fun a b => orderLe a b = true) ∧
    (dedupeCursorCandidates contains cs).Perm
        (selectNonOverlapping contains [] (sortBy cursorLe cs)) := by
  unfold dedupeCursorCandidates
  dsimp only []
  refine ⟨?_, ?_, sortBy_perm _ _⟩
  · have hsel := selectNonOverlapping_pairwise contains (sortBy cursorLe cs) []
      List.Pairwise.nil
    have hperm := sortBy_perm orderLe
      (selectNonOverlapping contains [] (sortBy cursorLe cs))
    exact (hperm.pairwise_iff (fun hab => ⟨hab.2, hab.1⟩)).mpr hsel
  · exact sortBy_sorted orderLe_total orderLe_trans _

end AgentBrowser

namespace AgentBrowser

theorem foldrRegions_nonempty (dom : RegionDom) :
    ∀ (defs : List (RegionKey × String × List String)),
      ∀ r ∈ defs.foldr (fun d acc =>
          let selectors := collectRegionSelectors dom d.2.2
          if selectors ≠ [] then
            (⟨d.1, d.2.1, selectors⟩ : SnapshotRegion) :: acc
          else acc) [],
        r.selectors ≠ [] := by
  intro defs
  induction defs with
  | nil => intro r hr; simp at hr
  | cons d rest ih =>
    intro r hr
    dsimp only [List.foldr] at hr
    by_cases hc : collectRegionSelectors dom d.2.2 ≠ []
    · rw [if_pos hc] at hr
      rcases List.mem_cons.mp hr with h1 | h1
      · rw [h1]
        exact hc
      · exact ih r h1
    · rw [if_neg hc] at hr
      exact ih r hr

theorem foldrRegions_keys (dom : RegionDom) :
    ∀ defs : List (RegionKey × String × List String),
      ((defs.foldr (fun d acc =>
          let selectors := collectRegionSelectors dom d.2.2
          if selectors ≠ [] then
            (⟨d.1, d.2.1, selectors⟩ : SnapshotRegion) :: acc
          else acc) []).map SnapshotRegion.key).Sublist (defs.map Prod.fst) := by
  intro defs
  induction defs with
  | nil => simp
  | cons d rest ih =>
    dsimp only [List.foldr, List.map_cons]
    by_cases hc : collectRegionSelectors dom d.2.2 ≠ []
    · rw [if_pos hc, List.map_cons]
      exact ih.cons₂ d.1
    · rw [if_neg hc]
      exact ih.cons d.1

theorem activeRegions_nonempty (dom? : Option RegionDom) :
    ∀ r ∈ getMyheloActiveRegions dom?, r.selectors ≠ [] := by
  unfold getMyheloActiveRegions
  rcases dom? with _ | dom
  · intro r hr; simp at hr
  · dsimp only []
    split
    · intro r hr; simp at hr
    · intro r hr
      by_cases hf : collectFabSelectors dom ≠ []
      · rw [if_pos hf] at hr
        rcases List.mem_append.mp hr with h1 | h1
        · exact foldrRegions_nonempty dom regionDefs r h1
        · rw [List.mem_singleton] at h1
          rw [h1]
          exact hf
      · rw [if_neg hf] at hr
        exact foldrRegions_nonempty dom regionDefs r hr

theorem activeRegions_keys (dom? : Option RegionDom) :
    ((getMyheloActiveRegions dom?).map SnapshotRegion.key).Sublist
      [RegionKey.sidebar, RegionKey.contents, RegionKey.drawer, RegionKey.fab] := by
  unfold getMyheloActiveRegions
  rcases dom? with _ | dom
  · simp
  · dsimp only []
    split
    · simp
    · have hkeys := foldrRegions_keys dom regionDefs
      have hdefs : regionDefs.map Prod.fst =
          [RegionKey.sidebar, RegionKey.contents, RegionKey.drawer] := rfl
      rw [hdefs] at hkeys
      by_cases hf : collectFabSelectors dom ≠ []
      · rw [if_pos hf, List.map_append]
        exact List.Sublist.append hkeys (List.Sublist.refl _)
      · rw [if_neg hf]
        refine hkeys.trans ?_
        decide

theorem regionSections_shape (oracle : PageOracle) (opts : SnapshotOptions) :
    ∀ (regions : List SnapshotRegion) (st : SnapState),
      List.Forall₂ (fun sec r => ∃ body, sec = "# " ++ r.title ++ ":\n" ++ body)
        ((regionSections oracle opts regions st).1) regions := by
  intro regions
  induction regions with
  | nil => intro st; exact List.Forall₂.nil
  | cons r rest ih =>
    intro st
    rw [regionSections]
    dsimp only []
    rcases hb : buildMyheloRegionSection oracle opts r.selectors st
      with ⟨sec, st1⟩
    rcases hs : regionSections oracle opts rest st1 with ⟨secs, st2⟩
    dsimp only []
    refine List.Forall₂.cons ⟨sec, rfl⟩ ?_
    have hrest := ih st1
    rw [hs] at hrest
    exact hrest

theorem getEnhancedSnapshot_region_tree (oracle : PageOracle)
    (opts : SnapshotOptions) (hsel : opts.selector = none)
    (hre : getMyheloActiveRegions oracle.regionDom ≠ []) :
    (getEnhancedSnapshot oracle opts).tree =
      joinSep "\n\n" (regionSections oracle opts
        (getMyheloActiveRegions oracle.regionDom) initState).1 := by
  unfold getEnhancedSnapshot
  dsimp only []
  rw [hsel]
  rw [if_pos rfl, if_pos hre]

/-- C9: every active region has at least one surviving on-screen selector (a
region with zero matches is omitted), the regions appear in detection order
sidebar, contents, drawer, fab, and on the region path the snapshot text is
the titled sections of the active regions, in order, joined with a blank
line. -/
theorem c9_region_output (oracle : PageOracle) (opts : SnapshotOptions)
    (hsel : opts.selector = none)
    (hre : getMyheloActiveRegions oracle.regionDom ≠ []) :
    (∀ r ∈ getMyheloActiveRegions oracle.regionDom, r.selectors ≠ []) ∧
    ((getMyheloActiveRegions oracle.regionDom).map SnapshotRegion.key).Sublist
      [RegionKey.sidebar, RegionKey.contents, RegionKey.drawer,
        RegionKey.fab] ∧
    (getEnhancedSnapshot oracle opts).tree =
      joinSep "\n\n" (regionSections oracle opts
        (getMyheloActiveRegions oracle.regionDom) initState).1 ∧
    List.Forall₂ (fun sec r => ∃ body, sec = "# " ++ r.title ++ ":\n" ++ body)
      ((regionSections oracle opts
        (getMyheloActiveRegions oracle.regionDom) initState).1)
      (getMyheloActiveRegions oracle.regionDom) :=
  ⟨activeRegions_nonempty oracle.regionDom,
   activeRegions_keys oracle.regionDom,
   getEnhancedSnapshot_region_tree oracle opts hsel hre,
   regionSections_shape oracle opts (getMyheloActiveRegions oracle.regionDom)
     initState⟩

theorem c9_witness :
    (({} : SnapshotOptions).selector = none ∧
      getMyheloActiveRegions regionOracle.regionDom ≠ []) ∧
    ((∀ r ∈ getMyheloActiveRegions regionOracle.regionDom, r.selectors ≠ []) ∧
    ((getMyheloActiveRegions regionOracle.regionDom).map
        SnapshotRegion.key).Sublist
      [RegionKey.sidebar, RegionKey.contents, RegionKey.drawer,
        RegionKey.fab] ∧
    (getEnhancedSnapshot regionOracle {}).tree =
      joinSep "\n\n" (regionSections regionOracle {}
        (getMyheloActiveRegions regionOracle.regionDom) initState).1 ∧
    List.Forall₂ (fun sec r => ∃ body, sec = "# " ++ r.title ++ ":\n" ++ body)
      ((regionSections regionOracle {}
        (getMyheloActiveRegions regionOracle.regionDom) initState).1)
      (getMyheloActiveRegions regionOracle.regionDom)) :=
  ⟨⟨rfl, by decide⟩, c9_region_output regionOracle {} rfl (by decide)⟩

end AgentBrowser
